import Mathlib

/-!
Verification development for the ReportGen backend core
(`backend/app/services/chapter_parser.py`, `prompt_manager.py`,
`report_generator.py`).

Strings are modelled as `List Char`; Python `str` is a sequence of Unicode
code points, as is `List Char`, so lengths, slicing and indexing agree.
Bounded Python `for` loops are modelled either structurally or as scans
over `List.range'`, keeping every definition executable so that concrete
inputs evaluate by `decide` / `rfl`.
-/

namespace ReportGen

/-- Unicode whitespace as recognized by Python's `str.strip` and by `\s`
in a unicode regex (the character classes used by `chapter_parser.py`,
including the ideographic space U+3000 that pattern 1–3 add explicitly). -/
def isPySpace (c : Char) : Bool :=
  c == ' ' || c == '\t' || c == '\n' || c == '\x0b' || c == '\x0c' || c == '\r' ||
  c == '\x1c' || c == '\x1d' || c == '\x1e' || c == '\x1f' ||
  c == '\x85' || c == '\xa0' || c == '\u1680' ||
  ('\u2000' ≤ c && c ≤ '\u200a') ||
  c == '\u2028' || c == '\u2029' || c == '\u202f' || c == '\u205f' || c == '\u3000'

/-- Python `str.lstrip()`. -/
def stripLeft (cs : List Char) : List Char := cs.dropWhile isPySpace

/-- Python `str.rstrip()`. -/
def stripRight (cs : List Char) : List Char := (cs.reverse.dropWhile isPySpace).reverse

/-- Python `str.strip()`. -/
def strip (cs : List Char) : List Char := stripRight (stripLeft cs)

/-- Characters Python `str.splitlines` treats as line boundaries. -/
def isLineBreak (c : Char) : Bool :=
  c == '\n' || c == '\r' || c == '\x0b' || c == '\x0c' ||
  c == '\x1c' || c == '\x1d' || c == '\x1e' || c == '\x85' ||
  c == '\u2028' || c == '\u2029'

/-- Worker for `splitLines`; `acc` holds the current line reversed.  A
`\r\n` pair counts as a single boundary; any other break character ends
the line by itself; the final line is emitted only when non-empty. -/
def splitLinesAux : List Char → List Char → List (List Char)
  | [], acc => if acc.isEmpty then [] else [acc.reverse]
  | c :: rest, acc =>
    if c = '\r' then
      match rest with
      | d :: rest2 =>
        if d = '\n' then acc.reverse :: splitLinesAux rest2 []
        else acc.reverse :: splitLinesAux (d :: rest2) []
      | [] => acc.reverse :: splitLinesAux [] []
    else if isLineBreak c then acc.reverse :: splitLinesAux rest []
    else splitLinesAux rest (c :: acc)

/-- Python `str.splitlines()` (keepends = False). -/
def splitLines (cs : List Char) : List (List Char) := splitLinesAux cs []

/-- Python `segment * k` for strings: `k` concatenated copies. -/
def repeatList (seg : List Char) : Nat → List Char
  | 0 => []
  | n + 1 => seg ++ repeatList seg n

/-!  `ChapterParser._clean_repeated_title`, strategy 1: exact periodic
repetition.  The Python loop `for segment_len in range(1, length // 2 + 1)`
returns at the first divisor of the length whose prefix, repeated, rebuilds
the whole title. -/

/-- One iteration of the strategy-1 loop at segment length `segLen`. -/
def strategy1Step (title : List Char) (segLen : Nat) : Option (List Char) :=
  if title.length % segLen = 0 ∧
      repeatList (title.take segLen) (title.length / segLen) = title
  then some (title.take segLen)
  else none

/-- Strategy 1 of `_clean_repeated_title` (fast path, exact repetition). -/
def strategy1 (title : List Char) : Option (List Char) :=
  (List.range' 1 (title.length / 2)).findSome? (strategy1Step title)

/-- Python `str.count` for a pattern `p0 :: pr` (non-overlapping,
left-to-right).  `fuel` only bounds the recursion; `countOccs` supplies
enough for the scan to finish. -/
def countOccsGo (p0 : Char) (pr : List Char) : Nat → List Char → Nat
  | 0, _ => 0
  | _, [] => 0
  | fuel + 1, c :: cs =>
    if c = p0 ∧ pr.isPrefixOf cs then countOccsGo p0 pr fuel (cs.drop pr.length) + 1
    else countOccsGo p0 pr fuel cs

/-- Python `s.count(pat)` for the non-empty pattern `p0 :: pr`. -/
def countOccs (p0 : Char) (pr : List Char) (cs : List Char) : Nat :=
  countOccsGo p0 pr cs.length cs

/-- Python `s.find(pat)` (first index of a substring occurrence, as
`Option Nat` instead of `-1` for absence); worker carrying the index. -/
def findSubAux (pat : List Char) : List Char → Nat → Option Nat
  | [], i => if pat.isPrefixOf [] then some i else none
  | c :: rest, i =>
    if pat.isPrefixOf (c :: rest) then some i else findSubAux pat rest (i + 1)

/-- Python `s.find(pat)`. -/
def findSub (pat cs : List Char) : Option Nat := findSubAux pat cs 0

/-- The `while candidate and candidate.rstrip().endswith(num)` loop of
strategy 2: repeatedly right-strip and drop a trailing `num` character.
`fuel` bounds the loop; each pass shortens the string, so `candidate.length`
passes always suffice. -/
def stripTrailingNumGo (num : Char) : Nat → List Char → List Char
  | 0, cand => cand
  | fuel + 1, cand =>
    if cand ≠ [] ∧ (stripRight cand).getLast? = some num
    then stripTrailingNumGo num fuel (stripRight cand).dropLast
    else cand

/-- The trailing-numeral stripping loop of strategy 2. -/
def stripTrailingNum (num : Char) (cand : List Char) : List Char :=
  stripTrailingNumGo num cand.length cand

/-- The Chinese numerals 1–10 that strategy 2 scans. -/
def chineseNums : List Char := ['一', '二', '三', '四', '五', '六', '七', '八', '九', '十']

/-- Body of strategy 2 once `title` starts with `num` followed by `、`:
count the `num、` prefix, then either cut before its second occurrence or
fall back to the first later occurrence of the bare numeral. -/
def strategy2Num (title : List Char) (num : Char) : Option (List Char) :=
  let pre : List Char := [num, '、']
  let after := title.drop 2
  let numBranch : Option (List Char) :=
    match findSub [num] after with
    | some np => if 0 < np then some (pre ++ stripTrailingNum num (after.take np)) else none
    | none => none
  if 1 < countOccs num ['、'] title then
    match findSub pre after with
    | some p => if 0 < p then some (pre ++ after.take p) else numBranch
    | none => numBranch
  else none

/-- The `for num in chinese_nums` loop of strategy 2. -/
def strategy2Go (title : List Char) : List Char → Option (List Char)
  | [] => none
  | num :: more =>
    if ([num, '、'] : List Char).isPrefixOf title then
      match strategy2Num title num with
      | some r => some r
      | none => strategy2Go title more
    else strategy2Go title more

/-- Strategy 2 of `_clean_repeated_title` (numbered-prefix heuristic). -/
def strategy2 (title : List Char) : Option (List Char) :=
  strategy2Go title chineseNums

/-- One iteration of the strategy-3 loop at cut point `cut`.  `none` is the
Python `continue`; `some` is the early `return candidate`.  The float test
`len(rest) < len(candidate) * 0.6` is modelled by the exact rational
comparison `5 * len(rest) < 3 * len(candidate)`, which agrees with the
IEEE-754 evaluation for every list length below 10^15. -/
def strategy3Step (title : List Char) (cut : Nat) : Option (List Char) :=
  let candidate := title.take cut
  let rest := title.drop cut
  if candidate ≠ [] ∧ ¬ (candidate.take 5).isPrefixOf rest then none
  else if 5 * rest.length < 3 * candidate.length then some candidate
  else none

/-- Strategy 3 of `_clean_repeated_title`: scan cut points from one third
of the length (Python `range(len(title) // 3, len(title))`), returning the
title unchanged when no cut point is accepted. -/
def strategy3 (title : List Char) : List Char :=
  ((List.range' (title.length / 3) (title.length - title.length / 3)).findSome?
    (strategy3Step title)).getD title

/-- `ChapterParser._clean_repeated_title`: the three repair strategies in
order, first success wins, empty titles returned unchanged. -/
def cleanRepeatedTitle (title : List Char) : List Char :=
  if title = [] then title
  else
    match strategy1 title with
    | some seg => seg
    | none =>
      match strategy2 title with
      | some t => t
      | none => strategy3 title

/-!  `ChapterParser._match_heading`.  The four regex patterns are compiled
by hand.  In each of patterns 1–3 the greedy character-class plus is
deterministic because the class of the following required character is
disjoint from the class being repeated, so maximal munch needs no
backtracking; in pattern 4 `#{1,3}` followed by `\s+` fails outright when
a fourth `#` follows, since backtracking only re-encounters `#`. -/

/-- Numerals allowed in pattern 1 (`第...章/节/篇/部/段`). -/
def isCNumFull (c : Char) : Bool :=
  c == '一' || c == '二' || c == '三' || c == '四' || c == '五' || c == '六' ||
  c == '七' || c == '八' || c == '九' || c == '十' || c == '百' || c == '千' || c == '万'

/-- Chapter-word suffixes of pattern 1. -/
def isChapterWord (c : Char) : Bool :=
  c == '章' || c == '节' || c == '篇' || c == '部' || c == '段'

/-- Numerals of pattern 2 (`一` … `十`). -/
def isCNumTen (c : Char) : Bool :=
  c == '一' || c == '二' || c == '三' || c == '四' || c == '五' ||
  c == '六' || c == '七' || c == '八' || c == '九' || c == '十'

/-- ASCII digits of pattern 3. -/
def isAsciiDigit (c : Char) : Bool := '0' ≤ c && c ≤ '9'

/-- Pattern `^(第[一二三四五六七八九十百千万]+[章节篇部段])[\s　]*(.*)$`:
returns the two capture groups. -/
def p1Match (line : List Char) : Option (List Char × List Char) :=
  match line with
  | '第' :: rest =>
    let nums := rest.takeWhile isCNumFull
    if nums = [] then none
    else
      match rest.drop nums.length with
      | suf :: rest2 =>
        if isChapterWord suf
        then some ('第' :: (nums ++ [suf]), rest2.dropWhile isPySpace)
        else none
      | [] => none
  | _ => none

/-- Pattern `^([一二三四五六七八九十]+[\.、])[\s　]*(.*)$`. -/
def p2Match (line : List Char) : Option (List Char × List Char) :=
  let nums := line.takeWhile isCNumTen
  if nums = [] then none
  else
    match line.drop nums.length with
    | d :: rest2 =>
      if d = '.' ∨ d = '、'
      then some (nums ++ [d], rest2.dropWhile isPySpace)
      else none
    | [] => none

/-- Pattern `^([0-9]+[\.\、])[\s　]*(.*)$`. -/
def p3Match (line : List Char) : Option (List Char × List Char) :=
  let digits := line.takeWhile isAsciiDigit
  if digits = [] then none
  else
    match line.drop digits.length with
    | d :: rest2 =>
      if d = '.' ∨ d = '、'
      then some (digits ++ [d], rest2.dropWhile isPySpace)
      else none
    | [] => none

/-- Pattern `^(#{1,3})\s+(.*)$`. -/
def p4Match (line : List Char) : Option (List Char × List Char) :=
  let hashes := line.takeWhile (· == '#')
  if hashes = [] ∨ 3 < hashes.length then none
  else
    let rest := line.drop hashes.length
    if rest.takeWhile isPySpace = [] then none
    else some (hashes, rest.dropWhile isPySpace)

/-- Group reassembly for patterns 1–3: Python filters out falsy groups, so
an empty second group leaves only the stripped first group, otherwise the
concatenation is stripped (`f"{prefix}{rest}".strip()`). -/
def reassemble (g1 g2 : List Char) : List Char :=
  if g2 = [] then strip g1 else strip (g1 ++ g2)

/-- The title assembled by `_match_heading` before `_clean_repeated_title`
is applied: first matching pattern wins; for the markdown pattern only the
text after the hashes is kept and an empty text falls through (dropping out
of the pattern loop, hence no match). -/
def matchHeadingRaw (line : List Char) : Option (List Char) :=
  match p1Match line with
  | some (g1, g2) => some (reassemble g1 g2)
  | none =>
    match p2Match line with
    | some (g1, g2) => some (reassemble g1 g2)
    | none =>
      match p3Match line with
      | some (g1, g2) => some (reassemble g1 g2)
      | none =>
        match p4Match line with
        | some (_, g2) => if g2 = [] then none else some g2
        | none => none

/-- `ChapterParser._match_heading`: the assembled raw title, normalized. -/
def matchHeading (line : List Char) : Option (List Char) :=
  (matchHeadingRaw line).map cleanRepeatedTitle

/-- `ParsedChapter` of `chapter_parser.py`. -/
structure ParsedChapter where
  title : List Char
  content : List Char
deriving DecidableEq

/-- The candidate-collection loop of `ChapterParser.parse`: for each
non-blank stripped line that matches a heading pattern, keep
`(index, title)` unless the title was already seen. -/
def collectCands : List (List Char) → Nat → List (List Char) → List (Nat × List Char)
  | [], _, _ => []
  | rawLine :: rest, idx, seen =>
    let line := strip rawLine
    if line = [] then collectCands rest (idx + 1) seen
    else
      match matchHeading line with
      | none => collectCands rest (idx + 1) seen
      | some title =>
        if title ∈ seen then collectCands rest (idx + 1) seen
        else (idx, title) :: collectCands rest (idx + 1) (title :: seen)

/-- Content of the chapter starting after line `start` and ending before
line `stop`: `"\n".join(lines[start:stop]).strip()`. -/
def sliceContent (lines : List (List Char)) (start stop : Nat) : List Char :=
  strip (List.intercalate ['\n'] ((lines.drop start).take (stop - start)))

/-- The chapter-building loop of `ChapterParser.parse`. -/
def buildChapters (lines : List (List Char)) : List (Nat × List Char) → List ParsedChapter
  | [] => []
  | (li, title) :: rest =>
    let stop := match rest with
      | [] => lines.length
      | (lj, _) :: _ => lj
    ⟨strip title, sliceContent lines (li + 1) stop⟩ :: buildChapters lines rest

/-- The placeholder title `章节一` used when no heading is detected. -/
def placeholderTitle : List Char := ['章', '节', '一']

/-- `ChapterParser.parse`. -/
def parse (text : List Char) : List ParsedChapter :=
  if text = [] then []
  else
    let lines := splitLines text
    let cands := collectCands lines 0 []
    if cands = [] then
      let combined := strip text
      if combined = [] then [] else [⟨placeholderTitle, combined⟩]
    else buildChapters lines cands

/-!  `ReportGenerator.generate_chapter` / `generate_chapter_with_text`,
prompt composition: two successive `str.replace` calls. -/

/-- Python `s.replace(pat, rep)` for non-empty `pat`: scan left to right,
replacing non-overlapping occurrences; the inserted `rep` is never
re-scanned within the same call.  `fuel` bounds the recursion and
`replaceAll` supplies `s.length`, which is always enough since every step
consumes at least one input character. -/
def replaceAllGo (pat rep : List Char) : Nat → List Char → List Char
  | 0, s => s
  | _ + 1, [] => []
  | fuel + 1, c :: cs =>
    if pat.isPrefixOf (c :: cs) ∧ pat ≠ []
    then rep ++ replaceAllGo pat rep fuel (cs.drop (pat.length - 1))
    else c :: replaceAllGo pat rep fuel cs

/-- Python `s.replace(pat, rep)` (for the non-empty patterns used here). -/
def replaceAll (pat rep s : List Char) : List Char := replaceAllGo pat rep s.length s

/-- The literal token `{data_summary}`. -/
def dataSummaryToken : List Char := "{data_summary}".data

/-- The literal token `{examples_text}`. -/
def examplesTextToken : List Char := "{examples_text}".data

/-- The user-prompt composition of `report_generator.py` (both generation
paths, lines 88–90 and 187–189): first replace `{data_summary}`, then
replace `{examples_text}` in the result of the first replacement
(`examples_text if examples_text else ""` equals `examples_text`, which is
already `""` when no examples are supplied). -/
def composeUserPrompt (tmpl dataSummary examplesText : List Char) : List Char :=
  replaceAll examplesTextToken examplesText (replaceAll dataSummaryToken dataSummary tmpl)

/-!  `prompt_manager.py`.  A stored template and the per-project template
sets (`Dict[str, List[Dict]]`, insertion-ordered) are modelled as a record
and an insertion-ordered association list. -/

/-- A stored prompt template (the dict fields of `prompt_manager.py`). -/
structure Template where
  id : String
  name : String
  chapter : String
  systemPrompt : String
  userPromptTemplate : String
  isDefault : Bool
  createdAt : String
  updatedAt : String
deriving DecidableEq

/-- Per-project template sets: chapter id ↦ ordered template list. -/
abbrev TemplateSets := List (String × List Template)

/-- `ProjectManager.DEFAULT_PROJECT_ID`. -/
def defaultProjectId : String := "default"

/-- Python `chapter in templates`. -/
def hasChapter (sets : TemplateSets) (ch : String) : Bool :=
  sets.any (fun p => p.1 == ch)

/-- Python `templates.get(chapter, [])`. -/
def getChapterList (sets : TemplateSets) (ch : String) : List Template :=
  ((sets.find? (fun p => p.1 == ch)).map (fun p => p.2)).getD []

/-- In-place update of the list stored under key `ch`. -/
def setChapter (sets : TemplateSets) (ch : String) (f : List Template → List Template) :
    TemplateSets :=
  sets.map (fun p => if p.1 == ch then (p.1, f p.2) else p)

/-- `PromptManager.get_templates_by_chapter` on loaded sets. -/
def getTemplatesByChapter (sets : TemplateSets) (ch : String) : List Template :=
  getChapterList sets ch

/-- `PromptManager.get_default_template`, lines 346–361, over the loaded
template sets (`load` stands for `load_all_templates`): if the chapter's
list in the project is non-empty, return the flagged entry, else its first
entry; otherwise, for a non-root project, return the *first* entry of the
root project's list for that chapter (a `deepcopy` in Python — value
semantics here). -/
def getDefaultTemplate (load : String → TemplateSets) (projectId ch : String) :
    Option Template :=
  let ts := getTemplatesByChapter (load projectId) ch
  if ts ≠ [] then
    match ts.find? (fun t => t.isDefault) with
    | some t => some t
    | none => ts.head?
  else if projectId ≠ defaultProjectId then
    (getTemplatesByChapter (load defaultProjectId) ch).head?
  else none

/-- The `new_template` dict built by `PromptManager.create_template`
(uuid and timestamp passed in explicitly). -/
def mkTemplate (tid name ch sys upt : String) (isDef : Bool) (now : String) : Template :=
  ⟨tid, name, ch, sys, upt, isDef, now, now⟩

/-- Clearing pass `for template in templates[chapter]: template['is_default'] = False`. -/
def clearDefaults (ts : List Template) : List Template :=
  ts.map (fun t => { t with isDefault := false })

/-- `PromptManager.create_template` on loaded sets: clear the chapter's
default flags when the new template is default and the chapter exists,
create the chapter's (empty) list when missing, then append. -/
def createTemplate (sets : TemplateSets) (ch tid name sys upt : String)
    (isDef : Bool) (now : String) : TemplateSets :=
  let s1 := if isDef ∧ hasChapter sets ch then setChapter sets ch clearDefaults else sets
  let s2 := if hasChapter s1 ch then s1 else s1 ++ [(ch, [])]
  setChapter s2 ch (fun ts => ts ++ [mkTemplate tid name ch sys upt isDef now])

/-- The field updates applied to the matched template by
`PromptManager.update_template` (`None` arguments leave fields unchanged). -/
def applyUpdates (t : Template) (name sys upt : Option String) (isDef : Option Bool)
    (now : String) : Template :=
  { t with
    name := name.getD t.name
    systemPrompt := sys.getD t.systemPrompt
    userPromptTemplate := upt.getD t.userPromptTemplate
    isDefault := isDef.getD t.isDefault
    updatedAt := now }

/-- Replace the first template whose id is `tid` by `g` of it. -/
def setFirstMatching (tid : String) (g : Template → Template) :
    List Template → List Template
  | [] => []
  | t :: ts => if t.id = tid then g t :: ts else t :: setFirstMatching tid g ts

/-- `update_template` restricted to one chapter list: `none` when the id is
absent; otherwise, when `is_default` is `some true`, every template's flag
is first cleared (Python clears all, then re-sets the target), and the
first template with the id receives the field updates. -/
def updateChapterList (ts : List Template) (tid : String) (name sys upt : Option String)
    (isDef : Option Bool) (now : String) : Option (List Template) :=
  if ts.any (fun t => t.id == tid) then
    let ts1 := if isDef = some true then ts.map (fun t => { t with isDefault := false }) else ts
    some (setFirstMatching tid (fun t => applyUpdates t name sys upt isDef now) ts1)
  else none

/-- `PromptManager.update_template` on loaded sets: chapters are scanned in
stored order, the first chapter containing the id is rewritten, the rest
are untouched; `none` when the id exists nowhere (Python returns `None`
without saving). -/
def updateTemplate (sets : TemplateSets) (tid : String) (name sys upt : Option String)
    (isDef : Option Bool) (now : String) : Option TemplateSets :=
  match sets with
  | [] => none
  | (ch, ts) :: rest =>
    match updateChapterList ts tid name sys upt isDef now with
    | some ts2 => some ((ch, ts2) :: rest)
    | none =>
      match updateTemplate rest tid name sys upt isDef now with
      | some rest2 => some ((ch, ts) :: rest2)
      | none => none

/-- Pop the first template with id `tid` (Python's indexed `pop`). -/
def removeFirst : List Template → String → Option (Template × List Template)
  | [], _ => none
  | t :: ts, tid =>
    if t.id = tid then some (t, ts)
    else (removeFirst ts tid).map (fun r => (r.1, t :: r.2))

/-- `chapter_templates[0]['is_default'] = True`. -/
def setFirstDefault : List Template → List Template
  | [] => []
  | t :: ts => { t with isDefault := true } :: ts

/-- `PromptManager.delete_template` on loaded sets: `none` models the
`return False` paths (sole remaining template for its chapter, or id not
found), in which case nothing is saved and the stored sets are unchanged;
on success the template is popped and, when it was the default, the new
first entry of the chapter's list is flagged. -/
def deleteTemplate : TemplateSets → String → Option TemplateSets
  | [], _ => none
  | (ch, ts) :: rest, tid =>
    match removeFirst ts tid with
    | some (removed, remaining) =>
      if ts.length = 1 then none
      else
        some ((ch,
          if removed.isDefault ∧ remaining ≠ [] then setFirstDefault remaining
          else remaining) :: rest)
    | none =>
      match deleteTemplate rest tid with
      | some rest2 => some ((ch, ts) :: rest2)
      | none => none

/-!  Counterexamples for the corrected claims. -/

/-- C1, counterexample.  The deduplication key in `ChapterParser.parse` is
the *normalized* title, not the raw title as matched: the document
`# abab\nX\n# ab\nY` contains two heading lines whose raw matched titles
`abab` and `ab` differ, yet both normalize to `ab`, so only one candidate
is retained and a single chapter results — under the claim (raw-title
deduplication) both would be retained. -/
theorem c1_counterexample :
    matchHeadingRaw (strip "# abab".data) = some "abab".data ∧
    matchHeadingRaw (strip "# ab".data) = some "ab".data ∧
    "abab".data ≠ "ab".data ∧
    matchHeading (strip "# abab".data) = matchHeading (strip "# ab".data) ∧
    parse "# abab\nX\n# ab\nY".data = [⟨"ab".data, "X\n# ab\nY".data⟩] := by
  refine ⟨by decide, by decide, by decide, by decide, by decide⟩

/-- C3, counterexample.  The second `str.replace` re-scans the output of
the first: with template `{data_summary}`, dataSummary `{examples_text}`
and examplesText `E`, the token-shaped substring inside the inserted
dataSummary is substituted, giving `E` instead of the claimed untouched
`{examples_text}`. -/
theorem c3_counterexample :
    composeUserPrompt "{data_summary}".data "{examples_text}".data "E".data = "E".data ∧
    "E".data ≠ "{examples_text}".data := by
  refine ⟨by decide, by decide⟩

/-- C5, counterexample.  For the non-primitive base `p = aa` and `k = 2`,
normalization returns the *shortest* exact period `a`, not `p`. -/
theorem c5_counterexample :
    "aa".data ≠ [] ∧ 2 ≤ 2 ∧
    cleanRepeatedTitle (repeatList "aa".data 2) = "a".data ∧
    "a".data ≠ "aa".data := by
  refine ⟨by decide, by decide, by decide, by decide⟩

/-- C6, counterexample.  Normalization is not idempotent: on the doubled
title `abcdefghiabcdeabcdefghiabcde`, strategy 1 returns the period
`abcdefghiabcde`, but normalizing that again lets strategy 3 cut it down
to `abcdefghi`. -/
theorem c6_counterexample :
    cleanRepeatedTitle
        (cleanRepeatedTitle "abcdefghiabcdeabcdefghiabcde".data) ≠
      cleanRepeatedTitle "abcdefghiabcdeabcdefghiabcde".data := by
  decide

/-- C2, counterexample.  When a non-root project has no templates for a
chapter, `get_default_template` returns the root chapter list's *first*
entry unconditionally (`fallback_list[0]`), even though a later root entry
is flagged `isDefault` — the claim predicts the flagged entry. -/
theorem c2_counterexample :
    getDefaultTemplate
        (fun pid => if pid = "default"
          then [("chapter_1",
            [mkTemplate "t1" "n1" "chapter_1" "s" "u" false "ts",
             mkTemplate "t2" "n2" "chapter_1" "s" "u" true "ts"])]
          else [])
        "p1" "chapter_1"
      = some (mkTemplate "t1" "n1" "chapter_1" "s" "u" false "ts") ∧
    (mkTemplate "t1" "n1" "chapter_1" "s" "u" false "ts").isDefault = false ∧
    (mkTemplate "t2" "n2" "chapter_1" "s" "u" true "ts").isDefault = true := by
  refine ⟨by decide, by decide, by decide⟩

/-!  A first-hit characterization of `findSome?` over `List.range'`, used
to reason about the bounded `for`-loops of strategies 1 and 3. -/

/-- Scanning `f` over `range' s n` either returns the value of `f` at the
least index of `[s, s+n)` where `f` is not `none`, or returns `none` with
`f` vanishing on the whole interval. -/
theorem findSome_range_first {α : Type} (f : Nat → Option α) (s n : Nat) :
    (∃ i, s ≤ i ∧ i < s + n ∧ (∀ j, s ≤ j → j < i → f j = none) ∧
      (List.range' s n).findSome? f = f i ∧ f i ≠ none) ∨
    ((∀ j, s ≤ j → j < s + n → f j = none) ∧ (List.range' s n).findSome? f = none) := by
  induction n generalizing s with
  | zero =>
    right
    exact ⟨fun j hj hlt => absurd (Nat.lt_of_le_of_lt hj hlt) (by omega), rfl⟩
  | succ n ih =>
    rw [List.range'_succ]
    cases hfs : f s with
    | some a =>
      left
      refine ⟨s, Nat.le_refl s, by omega, fun j hj hlt => absurd (Nat.lt_of_le_of_lt hj hlt) (by omega), ?_, by simp [hfs]⟩
      simp [List.findSome?_cons, hfs]
    | none =>
      rcases ih (s + 1) with ⟨i, h1, h2, hmin, heq, hne⟩ | ⟨hall, heq⟩
      · left
        refine ⟨i, by omega, by omega, ?_, ?_, hne⟩
        · intro j hj hlt
          rcases Nat.eq_or_lt_of_le hj with h | h
          · exact h ▸ hfs
          · exact hmin j h hlt
        · simp [List.findSome?_cons, hfs, heq]
      · right
        refine ⟨?_, by simp [List.findSome?_cons, hfs, heq]⟩
        intro j hj hlt
        rcases Nat.eq_or_lt_of_le hj with h | h
        · exact h ▸ hfs
        · exact hall j h (by omega)

/-!  C4: the strategy-3 cut-point scan. -/

/-- The acceptance condition actually implemented by strategy 3 at cut
point `cut`: the remainder must be shorter than 60 % of the candidate and
must *start with* the candidate's first `min(5, len)` characters (or the
candidate must be empty). -/
def codeAccepts (title : List Char) (cut : Nat) : Prop :=
  (title.take cut = [] ∨ ((title.take cut).take 5).isPrefixOf (title.drop cut)) ∧
  5 * (title.drop cut).length < 3 * (title.take cut).length

instance (title : List Char) (cut : Nat) : Decidable (codeAccepts title cut) := by
  unfold codeAccepts; infer_instance

/-- The acceptance condition as the claim words it: remainder shorter than
60 % of the candidate and *not* starting by repeating the candidate's
opening characters. -/
def claimAccepts (title : List Char) (cut : Nat) : Prop :=
  5 * (title.drop cut).length < 3 * (title.take cut).length ∧
  ¬ ((title.take cut).take 5).isPrefixOf (title.drop cut)

instance (title : List Char) (cut : Nat) : Decidable (claimAccepts title cut) := by
  unfold claimAccepts; infer_instance

/-- `strategy3Step` succeeds exactly at the cut points the code accepts,
returning the candidate. -/
theorem strategy3Step_some_iff (title : List Char) (cut : Nat) (x : List Char) :
    strategy3Step title cut = some x ↔ codeAccepts title cut ∧ x = title.take cut := by
  simp only [strategy3Step, codeAccepts]
  split_ifs with h1 h2
  · simp only [reduceCtorEq, false_iff, not_and]
    intro hor
    rcases hor with hor | hor
    · exact absurd (h1.1 hor).elim id
    · exact absurd hor h1.2
  · push_neg at h1
    constructor
    · intro h
      refine ⟨⟨?_, h2⟩, (Option.some_inj.mp h).symm⟩
      by_cases he : title.take cut = []
      · exact Or.inl he
      · exact Or.inr (h1 he)
    · intro ⟨_, hx⟩
      exact hx ▸ rfl
  · push_neg at h1
    simp only [reduceCtorEq, false_iff, not_and]
    intro hacc
    exact absurd hacc.2 h2

/-- `strategy3Step` is `none` exactly at rejected cut points. -/
theorem strategy3Step_none_iff (title : List Char) (cut : Nat) :
    strategy3Step title cut = none ↔ ¬ codeAccepts title cut := by
  constructor
  · intro h hacc
    have := (strategy3Step_some_iff title cut (title.take cut)).mpr ⟨hacc, rfl⟩
    rw [h] at this
    exact Option.noConfusion this
  · intro h
    cases hs : strategy3Step title cut with
    | none => rfl
    | some x => exact absurd ((strategy3Step_some_iff title cut x).mp hs).1 h

/-- C4, counterexample.  On `abcdefgh` (strategies 1 and 2 fail), cut
point 6 qualifies under the claim's condition — the remainder `gh` is
shorter than 60 % of `abcdef` and does not start by repeating its opening
characters — yet the code returns the title unchanged, because its actual
condition demands that the remainder *does* start with the candidate's
opening characters. -/
theorem c4_counterexample :
    strategy1 "abcdefgh".data = none ∧
    strategy2 "abcdefgh".data = none ∧
    "abcdefgh".data.length / 3 ≤ 6 ∧ 6 < "abcdefgh".data.length ∧
    claimAccepts "abcdefgh".data 6 ∧
    cleanRepeatedTitle "abcdefgh".data = "abcdefgh".data ∧
    "abcdefgh".data ≠ "abcdefgh".data.take 6 := by
  refine ⟨by decide, by decide, by decide, by decide, by decide, by decide, by decide⟩

/-- C4, amended.  On titles where strategies 1 and 2 fail, the scan runs
cut points from one third of the length and returns the prefix at the
first cut point accepted by `codeAccepts` (remainder shorter than 60 % of
the candidate *and* starting with the candidate's opening `min(5, len)`
characters); when no cut point in the range qualifies, the title is
returned unchanged. -/
theorem c4_cut_scan_first_accepted (title : List Char) (h0 : title ≠ [])
    (h1 : strategy1 title = none) (h2 : strategy2 title = none) :
    (∃ cut, title.length / 3 ≤ cut ∧ cut < title.length ∧ codeAccepts title cut ∧
      (∀ cut2, title.length / 3 ≤ cut2 → cut2 < cut → ¬ codeAccepts title cut2) ∧
      cleanRepeatedTitle title = title.take cut) ∨
    ((∀ cut, title.length / 3 ≤ cut → cut < title.length → ¬ codeAccepts title cut) ∧
      cleanRepeatedTitle title = title) := by
  have hclean : cleanRepeatedTitle title = strategy3 title := by
    simp [cleanRepeatedTitle, h0, h1, h2]
  have hrange : title.length / 3 + (title.length - title.length / 3) = title.length := by
    have := Nat.div_le_self title.length 3
    omega
  rcases findSome_range_first (strategy3Step title) (title.length / 3)
      (title.length - title.length / 3) with
    ⟨i, hi1, hi2, hmin, heq, hne⟩ | ⟨hall, heq⟩
  · left
    rw [hrange] at hi2
    cases hfi : strategy3Step title i with
    | none => exact absurd hfi hne
    | some x =>
      obtain ⟨hacc, hx⟩ := (strategy3Step_some_iff title i x).mp hfi
      refine ⟨i, hi1, hi2, hacc, ?_, ?_⟩
      · intro cut2 hc1 hc2
        exact (strategy3Step_none_iff title cut2).mp (hmin cut2 hc1 hc2)
      · rw [hclean]
        unfold strategy3
        rw [heq, hfi, hx]
        rfl
  · right
    constructor
    · intro cut hc1 hc2
      exact (strategy3Step_none_iff title cut).mp (hall cut hc1 (by omega))
    · rw [hclean]
      unfold strategy3
      rw [heq]
      rfl

/-- C4, witness: on `abcdefghiabcde`, the first accepted cut point is 9
and the scan returns `abcdefghi`. -/
theorem c4_cut_scan_witness :
    (∃ cut, "abcdefghiabcde".data.length / 3 ≤ cut ∧ cut < "abcdefghiabcde".data.length ∧
      codeAccepts "abcdefghiabcde".data cut ∧
      (∀ cut2, "abcdefghiabcde".data.length / 3 ≤ cut2 → cut2 < cut →
        ¬ codeAccepts "abcdefghiabcde".data cut2) ∧
      cleanRepeatedTitle "abcdefghiabcde".data = "abcdefghiabcde".data.take cut) ∨
    ((∀ cut, "abcdefghiabcde".data.length / 3 ≤ cut → cut < "abcdefghiabcde".data.length →
      ¬ codeAccepts "abcdefghiabcde".data cut) ∧
      cleanRepeatedTitle "abcdefghiabcde".data = "abcdefghiabcde".data) :=
  c4_cut_scan_first_accepted "abcdefghiabcde".data (by decide) (by decide) (by decide)

/-!  C5: strategy 1 on exact repetitions. -/

/-- Reflexivity of the initial-segment order. -/
theorem preRefl {α : Type} (l : List α) : l <+: l :=
  ⟨[], List.append_nil l⟩

/-- An initial segment obtained by `take` is a list-theoretic initial
segment. -/
theorem takeIsPre {α : Type} (n : Nat) (l : List α) : l.take n <+: l :=
  ⟨l.drop n, List.take_append_drop n l⟩

/-- `(repeatList seg k).length = k * seg.length`. -/
theorem repeatList_length (seg : List Char) (k : Nat) :
    (repeatList seg k).length = k * seg.length := by
  induction k with
  | zero => simp [repeatList]
  | succ k ih => simp [repeatList, ih, Nat.succ_mul]; omega

/-- `strategy1Step` succeeds exactly at segment lengths that divide the
length and whose prefix rebuilds the title by repetition. -/
theorem strategy1Step_some_iff (title : List Char) (segLen : Nat) (x : List Char) :
    strategy1Step title segLen = some x ↔
      (title.length % segLen = 0 ∧
        repeatList (title.take segLen) (title.length / segLen) = title) ∧
      x = title.take segLen := by
  simp only [strategy1Step]
  split_ifs with h
  · simp [h, eq_comm]
  · simp [h]

/-- `strategy1Step` is `none` exactly at rejected segment lengths. -/
theorem strategy1Step_none_iff (title : List Char) (segLen : Nat) :
    strategy1Step title segLen = none ↔
      ¬ (title.length % segLen = 0 ∧
        repeatList (title.take segLen) (title.length / segLen) = title) := by
  constructor
  · intro h hgood
    have := (strategy1Step_some_iff title segLen (title.take segLen)).mpr ⟨hgood, rfl⟩
    rw [h] at this
    exact Option.noConfusion this
  · intro h
    cases hs : strategy1Step title segLen with
    | none => rfl
    | some x => exact absurd ((strategy1Step_some_iff title segLen x).mp hs).1 h

/-- C5, amended.  Normalizing `p` repeated `k ≥ 2` times returns the
shortest nonempty exact period of the repetition: an initial segment of
`p` that itself rebuilds the whole string by repetition, with no shorter
length doing so.  (It equals `p` itself only when `p` has no shorter exact
period, as the counterexample `p = aa` shows.) -/
theorem c5_repetition_shortest_period (p : List Char) (k : Nat)
    (hp : p ≠ []) (hk : 2 ≤ k) :
    ∃ d, 0 < d ∧ d ≤ p.length ∧
      cleanRepeatedTitle (repeatList p k) = (repeatList p k).take d ∧
      (repeatList p k).take d <+: p ∧
      (repeatList p k).length % d = 0 ∧
      repeatList ((repeatList p k).take d) ((repeatList p k).length / d) = repeatList p k ∧
      (∀ e, 0 < e → e < d →
        ¬ ((repeatList p k).length % e = 0 ∧
           repeatList ((repeatList p k).take e) ((repeatList p k).length / e)
             = repeatList p k)) := by
  set s := repeatList p k with hsdef
  have hplen : 0 < p.length := List.length_pos.mpr hp
  have hslen : s.length = k * p.length := repeatList_length p k
  have hs0 : 0 < s.length := by
    rw [hslen]
    exact Nat.mul_pos (by omega) hplen
  have hsne : s ≠ [] := by
    intro h
    rw [h] at hs0
    simp at hs0
  obtain ⟨k2, hk2⟩ : ∃ k2, k = k2 + 1 := ⟨k - 1, by omega⟩
  have hsplit : s = p ++ repeatList p k2 := by
    rw [hsdef, hk2]
    rfl
  have htake : s.take p.length = p := by
    rw [hsplit, List.take_left]
  have hgoodp : s.length % p.length = 0 ∧
      repeatList (s.take p.length) (s.length / p.length) = s := by
    constructor
    · rw [hslen]
      exact Nat.mul_mod_left k p.length
    · rw [htake, hslen, Nat.mul_div_cancel k hplen]
  have hphalf : p.length ≤ s.length / 2 := by
    rw [hslen, Nat.le_div_iff_mul_le (by omega)]
    calc p.length * 2 = 2 * p.length := Nat.mul_comm _ _
    _ ≤ k * p.length := Nat.mul_le_mul_right p.length hk
  rcases findSome_range_first (strategy1Step s) 1 (s.length / 2) with
    ⟨i, hi1, hi2, hmin, heq, hne⟩ | ⟨hall, heq⟩
  · cases hfi : strategy1Step s i with
    | none => exact absurd hfi hne
    | some x =>
      obtain ⟨hgood, hx⟩ := (strategy1Step_some_iff s i x).mp hfi
      have hile : i ≤ p.length := by
        by_contra hlt
        push_neg at hlt
        have hnone := hmin p.length (by omega) hlt
        exact (strategy1Step_none_iff s p.length).mp hnone hgoodp
      have hstrat : strategy1 s = some (s.take i) := by
        unfold strategy1
        rw [heq, hfi, hx]
      have hclean : cleanRepeatedTitle s = s.take i := by
        simp [cleanRepeatedTitle, hsne, hstrat]
      refine ⟨i, by omega, hile, hclean, ?_, hgood.1, hgood.2, ?_⟩
      · have htp : s.take i = p.take i := by
          rw [hsplit, List.take_append_eq_append_take, Nat.sub_eq_zero_of_le hile]
          simp
        rw [htp]
        exact takeIsPre i p
      · intro e he0 hei
        exact (strategy1Step_none_iff s e).mp (hmin e (by omega) hei)
  · exfalso
    have hnone := hall p.length (by omega) (by omega)
    exact (strategy1Step_none_iff s p.length).mp hnone hgoodp

/-- C5, witness: for the primitive base `ab` repeated twice, the returned
period is `ab` itself. -/
theorem c5_repetition_witness :
    ∃ d, 0 < d ∧ d ≤ "ab".data.length ∧
      cleanRepeatedTitle (repeatList "ab".data 2) = (repeatList "ab".data 2).take d ∧
      (repeatList "ab".data 2).take d <+: "ab".data ∧
      (repeatList "ab".data 2).length % d = 0 ∧
      repeatList ((repeatList "ab".data 2).take d) ((repeatList "ab".data 2).length / d)
        = repeatList "ab".data 2 ∧
      (∀ e, 0 < e → e < d →
        ¬ ((repeatList "ab".data 2).length % e = 0 ∧
           repeatList ((repeatList "ab".data 2).take e) ((repeatList "ab".data 2).length / e)
             = repeatList "ab".data 2)) :=
  c5_repetition_shortest_period "ab".data 2 (by decide) (by decide)

/-!  C10 / C6: every repair strategy returns an initial segment of its
input. -/

/-- `rstrip` only removes characters from the right. -/
theorem stripRightIsPre (l : List Char) : stripRight l <+: l := by
  have h : (l.reverse.dropWhile isPySpace).reverse <+: l.reverse.reverse :=
    List.IsSuffix.reverse (List.dropWhile_suffix isPySpace)
  rwa [List.reverse_reverse] at h

/-- `dropLast` only removes the final element. -/
theorem dropLastIsPre (l : List Char) : l.dropLast <+: l := by
  rw [List.dropLast_eq_take]
  exact takeIsPre _ l

/-- Prepending preserves initial segments. -/
theorem appendPreLeft (x l1 l2 : List Char) (h : l1 <+: l2) : x ++ l1 <+: x ++ l2 := by
  obtain ⟨t, ht⟩ := h
  exact ⟨t, by rw [List.append_assoc, ht]⟩

/-- The trailing-numeral loop returns an initial segment of its input. -/
theorem stripTrailingNumGoIsPre (num : Char) (fuel : Nat) :
    ∀ cand, stripTrailingNumGo num fuel cand <+: cand := by
  induction fuel with
  | zero => intro cand; exact preRefl _
  | succ fuel ih =>
    intro cand
    unfold stripTrailingNumGo
    split_ifs with h
    · exact ((ih _).trans (dropLastIsPre _)).trans (stripRightIsPre cand)
    · exact preRefl _

/-- A list with an initial segment decomposes around it. -/
theorem eqAppendOfPre (l1 l2 : List Char) (h : l1 <+: l2) :
    l2 = l1 ++ l2.drop l1.length := by
  obtain ⟨t, ht⟩ := h
  rw [← ht, List.drop_left]

/-- The trailing-numeral loop at its standard fuel. -/
theorem stripTrailingNumIsPre (num : Char) (cand : List Char) :
    stripTrailingNum num cand <+: cand :=
  stripTrailingNumGoIsPre num cand.length cand

/-- `strategy2Num` returns an initial segment of `prefix ++ rest`. -/
theorem strategy2NumIsPre (title : List Char) (num : Char) (r : List Char)
    (h : strategy2Num title num = some r) :
    r <+: [num, '、'] ++ title.drop 2 := by
  unfold strategy2Num at h
  dsimp only at h
  split_ifs at h with hcount
  · split at h
    · rename_i p hfp
      split_ifs at h with hp0
      · cases h
        exact appendPreLeft _ _ _ (takeIsPre p (title.drop 2))
      · split at h
        · rename_i np hfn
          split_ifs at h with hnp
          cases h
          exact appendPreLeft _ _ _
            ((stripTrailingNumIsPre num _).trans (takeIsPre np (title.drop 2)))
        · exact Option.noConfusion h
    · split at h
      · rename_i np hfn
        split_ifs at h with hnp
        cases h
        exact appendPreLeft _ _ _
          ((stripTrailingNumIsPre num _).trans (takeIsPre np (title.drop 2)))
      · exact Option.noConfusion h

/-- Strategy 2 returns an initial segment of the title. -/
theorem strategy2GoIsPre (title : List Char) :
    ∀ nums r, strategy2Go title nums = some r → r <+: title := by
  intro nums
  induction nums with
  | nil => intro r h; exact absurd h (by simp [strategy2Go])
  | cons num more ih =>
    intro r h
    unfold strategy2Go at h
    split_ifs at h with hpre
    · have hpre2 : ([num, '、'] : List Char) <+: title := by
        rw [← List.isPrefixOf_iff_prefix]
        exact hpre
      have hdec : title = [num, '、'] ++ title.drop 2 :=
        eqAppendOfPre [num, '、'] title hpre2
      cases hsn : strategy2Num title num with
      | some r2 =>
        rw [hsn] at h
        have hr : r = r2 := by
          cases h
          rfl
        subst hr
        have hx := strategy2NumIsPre title num r hsn
        rwa [← hdec] at hx
      | none =>
        rw [hsn] at h
        exact ih r h
    · exact ih r h

/-- Strategy 1 returns an initial segment of the title. -/
theorem strategy1IsPre (title r : List Char) (h : strategy1 title = some r) :
    r <+: title := by
  unfold strategy1 at h
  obtain ⟨i, _, hfi⟩ := List.exists_of_findSome?_eq_some h
  obtain ⟨_, hx⟩ := (strategy1Step_some_iff title i r).mp hfi
  rw [hx]
  exact takeIsPre i title

/-- Strategy 3 returns an initial segment of the title. -/
theorem strategy3IsPre (title : List Char) : strategy3 title <+: title := by
  unfold strategy3
  cases hfs : (List.range' (title.length / 3) (title.length - title.length / 3)).findSome?
      (strategy3Step title) with
  | none => exact preRefl _
  | some x =>
    obtain ⟨i, _, hfi⟩ := List.exists_of_findSome?_eq_some hfs
    obtain ⟨_, hx⟩ := (strategy3Step_some_iff title i x).mp hfi
    rw [Option.getD_some, hx]
    exact takeIsPre i title

/-- Title normalization returns an initial segment of its input. -/
theorem cleanIsPre (title : List Char) : cleanRepeatedTitle title <+: title := by
  unfold cleanRepeatedTitle
  split_ifs with h0
  · exact preRefl _
  · cases h1 : strategy1 title with
    | some seg => exact strategy1IsPre title seg h1
    | none =>
      cases h2 : strategy2 title with
      | some t => exact strategy2GoIsPre title chineseNums t h2
      | none => exact strategy3IsPre title

/-- C10.  Every normalized title is an initial segment of the raw title:
each repair strategy returns either the input or a cut of it starting at
position 0, so normalization never lengthens a title and never changes a
character at any retained position. -/
theorem c10_normalize_initial_segment (s : List Char) :
    cleanRepeatedTitle s <+: s ∧ (cleanRepeatedTitle s).length ≤ s.length :=
  ⟨cleanIsPre s, (cleanIsPre s).length_le⟩

/-- C6, amended.  Normalization is *not* idempotent (see the
counterexample), but a second application can only shrink further: the
twice-normalized title is always an initial segment of the once-normalized
title. -/
theorem c6_normalize_shrinks (s : List Char) :
    cleanRepeatedTitle (cleanRepeatedTitle s) <+: cleanRepeatedTitle s :=
  cleanIsPre (cleanRepeatedTitle s)

/-!  C3: prompt composition. -/

/-- The scan of `replaceAllGo` does not depend on the fuel bound, as long
as the bound covers the input length. -/
theorem replaceAllGo_fuel (pat rep : List Char) :
    ∀ f1 f2 s, s.length ≤ f1 → s.length ≤ f2 →
      replaceAllGo pat rep f1 s = replaceAllGo pat rep f2 s := by
  intro f1
  induction f1 with
  | zero =>
    intro f2 s h1 _
    have hs : s = [] := List.eq_nil_of_length_eq_zero (Nat.le_zero.mp h1)
    subst hs
    cases f2 <;> rfl
  | succ f ih =>
    intro f2 s h1 h2
    cases s with
    | nil => cases f2 <;> rfl
    | cons c cs =>
      cases f2 with
      | zero => simp at h2
      | succ g =>
        show (if pat.isPrefixOf (c :: cs) ∧ pat ≠ []
            then rep ++ replaceAllGo pat rep f (cs.drop (pat.length - 1))
            else c :: replaceAllGo pat rep f cs)
          = (if pat.isPrefixOf (c :: cs) ∧ pat ≠ []
            then rep ++ replaceAllGo pat rep g (cs.drop (pat.length - 1))
            else c :: replaceAllGo pat rep g cs)
        have hcs : cs.length ≤ f := by
          simp at h1
          omega
        have hcs2 : cs.length ≤ g := by
          simp at h2
          omega
        have hdrop : (cs.drop (pat.length - 1)).length ≤ cs.length := by
          simp
        split_ifs with hc
        · rw [ih g _ (Nat.le_trans hdrop hcs) (Nat.le_trans hdrop hcs2)]
        · rw [ih g cs hcs hcs2]

/-- A single `str.replace` pass substitutes an occurrence of the pattern
at the head and then continues on the remainder only: the inserted
replacement is never re-scanned, even when it contains the pattern. -/
theorem replaceAllTokenStep (pat rep t : List Char) (hp : pat ≠ []) :
    replaceAll pat rep (pat ++ t) = rep ++ replaceAll pat rep t := by
  cases pat with
  | nil => exact absurd rfl hp
  | cons c pr =>
    show replaceAllGo (c :: pr) rep ((c :: pr ++ t).length) (c :: (pr ++ t))
      = rep ++ replaceAllGo (c :: pr) rep t.length t
    have hpre : (c :: pr).isPrefixOf (c :: (pr ++ t)) = true := by
      rw [ List.isPrefixOf_iff_prefix]
      exact ⟨t, by simp⟩
    have hlen : (c :: pr ++ t).length = (pr ++ t).length + 1 := by
      simp
    rw [hlen]
    show (if (c :: pr).isPrefixOf (c :: (pr ++ t)) ∧ (c :: pr) ≠ []
        then rep ++ replaceAllGo (c :: pr) rep ((pr ++ t).length)
          ((pr ++ t).drop ((c :: pr).length - 1))
        else c :: replaceAllGo (c :: pr) rep ((pr ++ t).length) (pr ++ t))
      = rep ++ replaceAllGo (c :: pr) rep t.length t
    rw [if_pos ⟨hpre, by simp⟩]
    have hdrop : (pr ++ t).drop ((c :: pr).length - 1) = t := by
      show (pr ++ t).drop (pr.length + 1 - 1) = t
      rw [Nat.add_sub_cancel, List.drop_left]
    rw [hdrop]
    congr 1
    exact replaceAllGo_fuel (c :: pr) rep _ _ t (by simp) (Nat.le_refl _)

/-- C3, amended.  `userPrompt` is built by two successive literal
substring replacements — `{data_summary}` first, then `{examples_text}`
over the *result* of the first pass.  Each individual pass never re-scans
its own insertions (substituting a leading token continues on the
remainder only), but because the second pass runs over the first pass's
output, an `{examples_text}` occurrence inside the inserted dataSummary
*is* substituted (see the counterexample); `{data_summary}` occurrences in
inserted values and token occurrences inside the inserted examplesText are
left untouched. -/
theorem c3_literal_two_pass_replacement :
    (∀ rep t : List Char,
      replaceAll dataSummaryToken rep (dataSummaryToken ++ t)
        = rep ++ replaceAll dataSummaryToken rep t) ∧
    (∀ rep t : List Char,
      replaceAll examplesTextToken rep (examplesTextToken ++ t)
        = rep ++ replaceAll examplesTextToken rep t) ∧
    (∀ tmpl ds et : List Char,
      composeUserPrompt tmpl ds et
        = replaceAll examplesTextToken et (replaceAll dataSummaryToken ds tmpl)) :=
  ⟨fun rep t => replaceAllTokenStep dataSummaryToken rep t (by decide),
   fun rep t => replaceAllTokenStep examplesTextToken rep t (by decide),
   fun _ _ _ => rfl⟩

/-!  C7: degenerate segmentation inputs. -/

/-- Stripping an all-whitespace string yields the empty string. -/
theorem stripAllSpace (cs : List Char) (h : ∀ c ∈ cs, isPySpace c = true) :
    strip cs = [] := by
  have h1 : stripLeft cs = [] := by
    unfold stripLeft
    exact List.dropWhile_eq_nil_iff.mpr h
  unfold strip
  rw [h1]
  rfl

/-- A line emitted while scanning `cs` with pending accumulator `acc`
draws each of its characters from `cs` or from `acc`. -/
theorem splitLinesAux_chars :
    ∀ (n : Nat) (cs acc : List Char), cs.length ≤ n →
      ∀ l ∈ splitLinesAux cs acc, ∀ c ∈ l, c ∈ cs ∨ c ∈ acc := by
  intro n
  induction n with
  | zero =>
    intro cs acc hlen l hl c hc
    have hcs : cs = [] := List.eq_nil_of_length_eq_zero (Nat.le_zero.mp hlen)
    subst hcs
    unfold splitLinesAux at hl
    split_ifs at hl with he
    · simp at hl
    · simp only [List.mem_singleton] at hl
      subst hl
      right
      rwa [List.mem_reverse] at hc
  | succ n ih =>
    intro cs acc hlen l hl c hc
    cases cs with
    | nil =>
      unfold splitLinesAux at hl
      split_ifs at hl with he
      · simp at hl
      · simp only [List.mem_singleton] at hl
        subst hl
        right
        rwa [List.mem_reverse] at hc
    | cons c0 rest =>
      unfold splitLinesAux at hl
      split_ifs at hl with h0 hbr
      · cases rest with
        | nil =>
          simp only at hl
          rw [show splitLinesAux [] [] = [] from rfl] at hl
          simp only [List.mem_singleton] at hl
          subst hl
          right
          rwa [List.mem_reverse] at hc
        | cons d rest2 =>
          simp only at hl
          split_ifs at hl with hd
          · rcases List.mem_cons.mp hl with h | h
            · subst h
              right
              rwa [List.mem_reverse] at hc
            · rcases ih rest2 [] (by simp at hlen; omega) l h c hc with h2 | h2
              · left
                exact List.mem_cons_of_mem _ (List.mem_cons_of_mem _ h2)
              · simp at h2
          · rcases List.mem_cons.mp hl with h | h
            · subst h
              right
              rwa [List.mem_reverse] at hc
            · rcases ih (d :: rest2) [] (by simp at hlen; simp; omega) l h c hc with h2 | h2
              · left
                exact List.mem_cons_of_mem _ h2
              · simp at h2
      · rcases List.mem_cons.mp hl with h | h
        · subst h
          right
          rwa [List.mem_reverse] at hc
        · rcases ih rest [] (by simp at hlen; omega) l h c hc with h2 | h2
          · left
            exact List.mem_cons_of_mem _ h2
          · simp at h2
      · rcases ih rest (c0 :: acc) (by simp at hlen; omega) l hl c hc with h2 | h2
        · left
          exact List.mem_cons_of_mem _ h2
        · rcases List.mem_cons.mp h2 with h3 | h3
          · left
            rw [h3]
            exact List.mem_cons_self _ _
          · right
            exact h3

/-- Every character of every line produced by `splitLines` occurs in the
input text. -/
theorem splitLines_chars (text : List Char) :
    ∀ l ∈ splitLines text, ∀ c ∈ l, c ∈ text := by
  intro l hl c hc
  rcases splitLinesAux_chars text.length text [] (Nat.le_refl _) l hl c hc with h | h
  · exact h
  · simp at h

/-- When every line is blank after stripping or fails the heading match,
no candidate is collected. -/
theorem collectCandsNil (lines : List (List Char))
    (h : ∀ l ∈ lines, strip l = [] ∨ matchHeading (strip l) = none) :
    ∀ idx seen, collectCands lines idx seen = [] := by
  induction lines with
  | nil => intro idx seen; rfl
  | cons raw rest ih =>
    intro idx seen
    unfold collectCands
    dsimp only
    rcases h raw (List.mem_cons_self _ _) with hb | hm
    · rw [if_pos hb]
      exact ih (fun l hl => h l (List.mem_cons_of_mem _ hl)) _ _
    · split_ifs with hb
      · exact ih (fun l hl => h l (List.mem_cons_of_mem _ hl)) _ _
      · rw [hm]
        exact ih (fun l hl => h l (List.mem_cons_of_mem _ hl)) _ _

/-- C7.  Segmenting the empty string or an all-whitespace string returns
the empty list; segmenting a non-blank text none of whose lines matches a
heading pattern returns exactly one chapter: the placeholder title
`章节一` with the whole trimmed text as content (a single-element list,
i.e. order 0). -/
theorem c7_parse_degenerate_cases :
    (∀ text : List Char, (∀ c ∈ text, isPySpace c = true) → parse text = []) ∧
    (∀ text : List Char, strip text ≠ [] →
      (∀ l ∈ splitLines text, matchHeading (strip l) = none) →
      parse text = [⟨placeholderTitle, strip text⟩]) := by
  constructor
  · intro text hsp
    by_cases ht : text = []
    · rw [ht]
      rfl
    · have hlines : ∀ l ∈ splitLines text, strip l = [] ∨ matchHeading (strip l) = none := by
        intro l hl
        left
        exact stripAllSpace l (fun c hc => hsp c (splitLines_chars text l hl c hc))
      have hcands := collectCandsNil (splitLines text) hlines 0 []
      have hstrip : strip text = [] := stripAllSpace text hsp
      unfold parse
      rw [if_neg ht]
      dsimp only
      rw [hcands, hstrip]
      rfl
  · intro text hne hmatch
    have ht : text ≠ [] := by
      intro h
      apply hne
      rw [h]
      rfl
    have hlines : ∀ l ∈ splitLines text, strip l = [] ∨ matchHeading (strip l) = none :=
      fun l hl => Or.inr (hmatch l hl)
    have hcands := collectCandsNil (splitLines text) hlines 0 []
    unfold parse
    rw [if_neg ht]
    dsimp only
    rw [hcands, if_pos rfl, if_neg hne]

/-- C7, witness: a whitespace-only input and a plain unheaded text. -/
theorem c7_parse_degenerate_witness :
    parse "  \n \t ".data = [] ∧
    parse "plain text, no headings".data
      = [⟨placeholderTitle, strip "plain text, no headings".data⟩] :=
  ⟨c7_parse_degenerate_cases.1 "  \n \t ".data (by decide),
   c7_parse_degenerate_cases.2 "plain text, no headings".data (by decide) (by decide)⟩

/-!  C1: the candidate-collection loop deduplicates on normalized
titles. -/

/-- Full characterization of `collectCands`: retained titles are distinct
and outside `seen`; every candidate points at a non-blank line at its
(offset) index whose heading match yields exactly its title; every
non-blank matching line's title ends up in `seen` or among the retained
titles; and candidates are kept in strictly increasing line order. -/
theorem collectCands_spec :
    ∀ (ls : List (List Char)) (idx : Nat) (seen : List (List Char)),
      ((collectCands ls idx seen).map Prod.snd).Nodup ∧
      (∀ t ∈ (collectCands ls idx seen).map Prod.snd, t ∉ seen) ∧
      (∀ c ∈ collectCands ls idx seen, idx ≤ c.1 ∧ c.1 - idx < ls.length ∧
        strip (ls.getD (c.1 - idx) []) ≠ [] ∧
        matchHeading (strip (ls.getD (c.1 - idx) [])) = some c.2) ∧
      (∀ i, i < ls.length → strip (ls.getD i []) ≠ [] →
        ∀ t, matchHeading (strip (ls.getD i [])) = some t →
          t ∈ seen ∨ t ∈ (collectCands ls idx seen).map Prod.snd) ∧
      List.Chain' (fun a b => a.1 < b.1) (collectCands ls idx seen) := by
  intro ls
  induction ls with
  | nil =>
    intro idx seen
    refine ⟨by simp [collectCands], by simp [collectCands], by simp [collectCands],
      ?_, by simp [collectCands]⟩
    intro i hi
    simp at hi
  | cons raw rest ih =>
    intro idx seen
    by_cases hb : strip raw = []
    · have hval : collectCands (raw :: rest) idx seen = collectCands rest (idx + 1) seen := by
        conv_lhs => rw [collectCands]
        rw [if_pos hb]
      obtain ⟨ih1, ih2, ih3, ih4, ih5⟩ := ih (idx + 1) seen
      rw [hval]
      refine ⟨ih1, ih2, ?_, ?_, ih5⟩
      · intro c hc
        obtain ⟨hc1, hc2, hc3, hc4⟩ := ih3 c hc
        have hshift : c.1 - idx = (c.1 - (idx + 1)) + 1 := by omega
        refine ⟨by omega, by simp; omega, ?_, ?_⟩
        · rwa [hshift, List.getD_cons_succ]
        · rwa [hshift, List.getD_cons_succ]
      · intro i hi hne t hmt
        cases i with
        | zero =>
          rw [List.getD_cons_zero] at hne
          exact absurd hb hne
        | succ n =>
          rw [List.getD_cons_succ] at hne hmt
          exact ih4 n (by simp at hi; omega) hne t hmt
    · cases hm : matchHeading (strip raw) with
      | none =>
        have hval : collectCands (raw :: rest) idx seen = collectCands rest (idx + 1) seen := by
          conv_lhs => rw [collectCands]
          rw [if_neg hb, hm]
        obtain ⟨ih1, ih2, ih3, ih4, ih5⟩ := ih (idx + 1) seen
        rw [hval]
        refine ⟨ih1, ih2, ?_, ?_, ih5⟩
        · intro c hc
          obtain ⟨hc1, hc2, hc3, hc4⟩ := ih3 c hc
          have hshift : c.1 - idx = (c.1 - (idx + 1)) + 1 := by omega
          refine ⟨by omega, by simp; omega, ?_, ?_⟩
          · rwa [hshift, List.getD_cons_succ]
          · rwa [hshift, List.getD_cons_succ]
        · intro i hi hne t hmt
          cases i with
          | zero =>
            rw [List.getD_cons_zero] at hmt
            rw [hmt] at hm
            exact Option.noConfusion hm
          | succ n =>
            rw [List.getD_cons_succ] at hne hmt
            exact ih4 n (by simp at hi; omega) hne t hmt
      | some t0 =>
        by_cases hseen : t0 ∈ seen
        · have hval : collectCands (raw :: rest) idx seen
              = collectCands rest (idx + 1) seen := by
            conv_lhs => rw [collectCands]
            rw [if_neg hb, hm]
            show (if t0 ∈ seen then collectCands rest (idx + 1) seen
              else (idx, t0) :: collectCands rest (idx + 1) (t0 :: seen)) = _
            rw [if_pos hseen]
          obtain ⟨ih1, ih2, ih3, ih4, ih5⟩ := ih (idx + 1) seen
          rw [hval]
          refine ⟨ih1, ih2, ?_, ?_, ih5⟩
          · intro c hc
            obtain ⟨hc1, hc2, hc3, hc4⟩ := ih3 c hc
            have hshift : c.1 - idx = (c.1 - (idx + 1)) + 1 := by omega
            refine ⟨by omega, by simp; omega, ?_, ?_⟩
            · rwa [hshift, List.getD_cons_succ]
            · rwa [hshift, List.getD_cons_succ]
          · intro i hi hne t hmt
            cases i with
            | zero =>
              rw [List.getD_cons_zero] at hmt
              rw [hmt] at hm
              have : t0 = t := by
                cases hm
                rfl
              left
              rw [← this]
              exact hseen
            | succ n =>
              rw [List.getD_cons_succ] at hne hmt
              exact ih4 n (by simp at hi; omega) hne t hmt
        · have hval : collectCands (raw :: rest) idx seen
              = (idx, t0) :: collectCands rest (idx + 1) (t0 :: seen) := by
            conv_lhs => rw [collectCands]
            rw [if_neg hb, hm]
            show (if t0 ∈ seen then collectCands rest (idx + 1) seen
              else (idx, t0) :: collectCands rest (idx + 1) (t0 :: seen)) = _
            rw [if_neg hseen]
          obtain ⟨ih1, ih2, ih3, ih4, ih5⟩ := ih (idx + 1) (t0 :: seen)
          rw [hval]
          refine ⟨?_, ?_, ?_, ?_, ?_⟩
          · rw [List.map_cons, List.nodup_cons]
            refine ⟨?_, ih1⟩
            intro hmem
            exact ih2 t0 hmem (List.mem_cons_self _ _)
          · intro t ht
            rw [List.map_cons] at ht
            rcases List.mem_cons.mp ht with h | h
            · rw [h]
              exact hseen
            · intro hs
              exact ih2 t h (List.mem_cons_of_mem _ hs)
          · intro c hc
            rcases List.mem_cons.mp hc with h | h
            · subst h
              refine ⟨Nat.le_refl _, by simp, ?_, ?_⟩
              · rw [Nat.sub_self, List.getD_cons_zero]
                exact hb
              · rw [Nat.sub_self, List.getD_cons_zero]
                exact hm
            · obtain ⟨hc1, hc2, hc3, hc4⟩ := ih3 c h
              have hshift : c.1 - idx = (c.1 - (idx + 1)) + 1 := by omega
              refine ⟨by omega, by simp; omega, ?_, ?_⟩
              · rwa [hshift, List.getD_cons_succ]
              · rwa [hshift, List.getD_cons_succ]
          · intro i hi hne t hmt
            cases i with
            | zero =>
              rw [List.getD_cons_zero] at hmt
              rw [hmt] at hm
              have : t0 = t := by
                cases hm
                rfl
              right
              rw [List.map_cons, ← this]
              exact List.mem_cons_self _ _
            | succ n =>
              rw [List.getD_cons_succ] at hne hmt
              rcases ih4 n (by simp at hi; omega) hne t hmt with h | h
              · rcases List.mem_cons.mp h with h2 | h2
                · right
                  rw [List.map_cons, h2]
                  exact List.mem_cons_self _ _
                · left
                  exact h2
              · right
                rw [List.map_cons]
                exact List.mem_cons_of_mem _ h
          · rw [List.chain'_cons']
            refine ⟨?_, ih5⟩
            intro b hbmem
            have hb2 := ih3 b (List.mem_of_mem_head? hbmem)
            omega

/-- C1, amended.  A matched heading line is retained as a candidate if and
only if its *normalized* title (the output of `_clean_repeated_title`, the
value actually stored) duplicates no previously retained candidate's
normalized title, in first-seen order: retained titles are distinct, each
retained candidate records exactly its line's normalized match, every
matching non-blank line's normalized title appears among the retained
titles, and candidates appear in increasing line order. -/
theorem c1_dedup_on_normalized_titles (text : List Char) :
    ((collectCands (splitLines text) 0 []).map Prod.snd).Nodup ∧
    (∀ c ∈ collectCands (splitLines text) 0 [],
      c.1 < (splitLines text).length ∧
      strip ((splitLines text).getD c.1 []) ≠ [] ∧
      matchHeading (strip ((splitLines text).getD c.1 [])) = some c.2) ∧
    (∀ i, i < (splitLines text).length → strip ((splitLines text).getD i []) ≠ [] →
      ∀ t, matchHeading (strip ((splitLines text).getD i [])) = some t →
        t ∈ (collectCands (splitLines text) 0 []).map Prod.snd) ∧
    List.Chain' (fun a b => a.1 < b.1) (collectCands (splitLines text) 0 []) := by
  obtain ⟨h1, _, h3, h4, h5⟩ := collectCands_spec (splitLines text) 0 []
  refine ⟨h1, ?_, ?_, h5⟩
  · intro c hc
    obtain ⟨_, hc2, hc3, hc4⟩ := h3 c hc
    rw [Nat.sub_zero] at hc2 hc3 hc4
    exact ⟨hc2, hc3, hc4⟩
  · intro i hi hne t hmt
    rcases h4 i hi hne t hmt with h | h
    · simp at h
    · exact h

/-- C1, witness: in `# ab\nX\n# cd`, the normalized title of line 0 is
retained. -/
theorem c1_dedup_witness :
    "ab".data ∈ ((collectCands (splitLines "# ab\nX\n# cd".data) 0 []).map Prod.snd) :=
  (c1_dedup_on_normalized_titles "# ab\nX\n# cd".data).2.2.1 0 (by decide) (by decide)
    "ab".data (by decide)

/-!  C2: root-project fallback of `get_default_template`. -/

/-- C2, amended.  For a non-root project whose chapter list is empty,
`get_default_template` does *not* repeat the flagged-default lookup on the
root set: it returns the root chapter list's first entry in stored order
unconditionally (ignoring `isDefault` flags there). -/
theorem c2_rootFallback_first_entry (load : String → TemplateSets) (projectId ch : String)
    (h1 : projectId ≠ defaultProjectId)
    (h2 : getTemplatesByChapter (load projectId) ch = []) :
    getDefaultTemplate load projectId ch
      = (getTemplatesByChapter (load defaultProjectId) ch).head? := by
  unfold getDefaultTemplate
  dsimp only
  rw [h2]
  rw [if_neg (by simp), if_pos h1]

/-- C2, witness: a project with no templates falls back to the head of the
root list. -/
theorem c2_rootFallback_witness :
    getDefaultTemplate
        (fun pid => if pid = "default"
          then [("chapter_2", [mkTemplate "r1" "n" "chapter_2" "s" "u" false "ts"])]
          else [])
        "proj" "chapter_2"
      = (getTemplatesByChapter
          ((fun pid => if pid = "default"
            then [("chapter_2", [mkTemplate "r1" "n" "chapter_2" "s" "u" false "ts"])]
            else []) "default") "chapter_2").head? :=
  c2_rootFallback_first_entry
    (fun pid => if pid = "default"
      then [("chapter_2", [mkTemplate "r1" "n" "chapter_2" "s" "u" false "ts"])]
      else [])
    "proj" "chapter_2" (by decide) (by decide)

/-!  C8: the delete contract. -/

/-- A successful `removeFirst` splits the list around the first matching
template. -/
theorem removeFirst_eq_some (ts : List Template) (tid : String) (r : Template)
    (rem : List Template) (h : removeFirst ts tid = some (r, rem)) :
    ∃ a b, ts = a ++ r :: b ∧ rem = a ++ b ∧ r.id = tid ∧ ∀ u ∈ a, u.id ≠ tid := by
  induction ts generalizing r rem with
  | nil => exact absurd h (by simp [removeFirst])
  | cons t ts' ih =>
    unfold removeFirst at h
    split_ifs at h with hid
    · cases h
      exact ⟨[], ts', by simp, by simp, hid, by simp⟩
    · cases hr : removeFirst ts' tid with
      | none =>
        rw [hr] at h
        exact Option.noConfusion h
      | some pr =>
        rw [hr] at h
        obtain ⟨r2, rem2⟩ := pr
        simp only [Option.map_some'] at h
        cases h
        obtain ⟨a, b, h1, h2, h3, h4⟩ := ih _ _ hr
        refine ⟨t :: a, b, by rw [h1]; rfl, by rw [h2]; rfl, h3, ?_⟩
        intro u hu
        rcases List.mem_cons.mp hu with h5 | h5
        · rw [h5]
          exact hid
        · exact h4 u h5

/-- `removeFirst` fails exactly when no template has the id. -/
theorem removeFirst_eq_none (ts : List Template) (tid : String)
    (h : ∀ u ∈ ts, u.id ≠ tid) : removeFirst ts tid = none := by
  induction ts with
  | nil => rfl
  | cons t ts' ih =>
    unfold removeFirst
    rw [if_neg (h t (List.mem_cons_self _ _)), ih (fun u hu => h u (List.mem_cons_of_mem _ hu))]
    rfl

/-- Chapters preceding the one that contains the id are passed over
untouched by `delete_template`. -/
theorem deleteTemplate_skip (pre rest : TemplateSets) (tid : String)
    (h : ∀ p ∈ pre, ∀ u ∈ p.2, u.id ≠ tid) :
    deleteTemplate (pre ++ rest) tid = (deleteTemplate rest tid).map (fun r => pre ++ r) := by
  induction pre with
  | nil =>
    cases hd : deleteTemplate rest tid <;> simp [hd]
  | cons p pre' ih =>
    obtain ⟨ch, ts⟩ := p
    have hnone : removeFirst ts tid = none :=
      removeFirst_eq_none ts tid (h (ch, ts) (List.mem_cons_self _ _))
    have hstep : deleteTemplate ((ch, ts) :: (pre' ++ rest)) tid
        = match deleteTemplate (pre' ++ rest) tid with
          | some rest2 => some ((ch, ts) :: rest2)
          | none => none := by
      conv_lhs => rw [deleteTemplate]
      rw [hnone]
    show deleteTemplate ((ch, ts) :: (pre' ++ rest)) tid = _
    rw [hstep, ih (fun q hq => h q (List.mem_cons_of_mem _ hq))]
    cases hd : deleteTemplate rest tid <;> simp

/-- C8.  Deleting a template that is the sole entry of its chapter fails
(`return False`; the stored sets are not rewritten), while deleting from a
chapter with at least two entries succeeds, removes exactly one entry, and
promotes the new first entry to default exactly when the removed one was
the default. -/
theorem c8_delete_template_contract (pre post : TemplateSets) (ch : String)
    (ts : List Template) (tid : String)
    (hpre : ∀ p ∈ pre, ∀ u ∈ p.2, u.id ≠ tid) :
    (∀ t : Template, t.id = tid → ts = [t] →
      deleteTemplate (pre ++ (ch, ts) :: post) tid = none) ∧
    (∀ removed remaining, removeFirst ts tid = some (removed, remaining) →
      2 ≤ ts.length →
      ∃ ts2, deleteTemplate (pre ++ (ch, ts) :: post) tid
          = some (pre ++ (ch, ts2) :: post) ∧
        ts2.length + 1 = ts.length ∧
        (removed.isDefault = false → ts2 = remaining) ∧
        (removed.isDefault = true → ∃ u rest2, ts2 = u :: rest2 ∧ u.isDefault = true)) := by
  rw [deleteTemplate_skip pre ((ch, ts) :: post) tid hpre]
  constructor
  · intro t hid hts
    subst hts
    have hrm : removeFirst [t] tid = some (t, []) := by
      unfold removeFirst
      rw [if_pos hid]
    have hdel : deleteTemplate ((ch, [t]) :: post) tid = none := by
      conv_lhs => rw [deleteTemplate]
      rw [hrm]
      rfl
    rw [hdel]
    rfl
  · intro removed remaining hrm hlen
    obtain ⟨a, b, hts, hrem, hid2, hnota⟩ := removeFirst_eq_some ts tid removed remaining hrm
    have hlenrem : remaining.length + 1 = ts.length := by
      rw [hts, hrem]
      simp
      omega
    have hdel : deleteTemplate ((ch, ts) :: post) tid
        = some ((ch, if removed.isDefault = true ∧ ¬remaining = [] then
            setFirstDefault remaining else remaining) :: post) := by
      conv_lhs => rw [deleteTemplate]
      rw [hrm]
      show (if ts.length = 1 then none
        else some ((ch, if removed.isDefault = true ∧ ¬remaining = [] then
          setFirstDefault remaining else remaining) :: post))
        = (some ((ch, if removed.isDefault = true ∧ ¬remaining = [] then
          setFirstDefault remaining else remaining) :: post) : Option TemplateSets)
      rw [if_neg (by omega)]
    cases hdef : removed.isDefault with
    | false =>
      refine ⟨remaining, ?_, hlenrem, fun _ => rfl, fun hh => ?_⟩
      · rw [hdel, if_neg (by rw [hdef]; simp)]
        rfl
      · exact Bool.noConfusion hh
    | true =>
      have hne : remaining ≠ [] := by
        intro hnil
        rw [hnil] at hlenrem
        simp at hlenrem
        omega
      cases hr0 : remaining with
      | nil => exact absurd hr0 hne
      | cons r0 rr =>
        refine ⟨{ r0 with isDefault := true } :: rr, ?_, ?_, ?_, ?_⟩
        · rw [hdel, if_pos ⟨hdef, hne⟩, hr0]
          rfl
        · have : ({ r0 with isDefault := true } :: rr).length = remaining.length := by
            rw [hr0]
            rfl
          omega
        · intro hh
          exact Bool.noConfusion hh
        · intro _
          exact ⟨{ r0 with isDefault := true }, rr, rfl, rfl⟩

/-- C8, witness: deleting the sole template of a chapter fails. -/
theorem c8_delete_template_witness :
    deleteTemplate [("chapter_1", [mkTemplate "t1" "n" "chapter_1" "s" "u" true "ts"])]
      "t1" = none :=
  (c8_delete_template_contract [] [] "chapter_1"
      [mkTemplate "t1" "n" "chapter_1" "s" "u" true "ts"] "t1" (by simp)).1
    (mkTemplate "t1" "n" "chapter_1" "s" "u" true "ts") rfl rfl

/-!  C9: the at-most-one-default invariant. -/

/-- Number of default-flagged templates in a chapter list. -/
def countDefaults (ts : List Template) : Nat := ts.countP (fun t => t.isDefault)

/-- The invariant: every chapter list carries at most one default flag. -/
def defaultInvariant (sets : TemplateSets) : Prop :=
  ∀ p ∈ sets, countDefaults p.2 ≤ 1

instance (sets : TemplateSets) : Decidable (defaultInvariant sets) := by
  unfold defaultInvariant
  infer_instance

/-- Splitting `countDefaults` over an append. -/
theorem countDefaults_append (a b : List Template) :
    countDefaults (a ++ b) = countDefaults a + countDefaults b := by
  unfold countDefaults
  rw [List.countP_append]

/-- `countDefaults` over a cons. -/
theorem countDefaults_cons (t : Template) (ts : List Template) :
    countDefaults (t :: ts) = countDefaults ts + (if t.isDefault then 1 else 0) := by
  unfold countDefaults
  rw [List.countP_cons]

/-- A cleared chapter list has no default flags. -/
theorem countDefaults_clear (ts : List Template) :
    countDefaults (ts.map (fun t => { t with isDefault := false })) = 0 := by
  unfold countDefaults
  rw [List.countP_eq_zero]
  intro t ht
  obtain ⟨u, _, heq⟩ := List.mem_map.mp ht
  rw [← heq]
  simp

/-- A singleton contributes at most one default. -/
theorem countDefaults_singleton_le (t : Template) : countDefaults [t] ≤ 1 := by
  rw [countDefaults_cons]
  split_ifs <;> simp [countDefaults]

/-- An unflagged singleton contributes no default. -/
theorem countDefaults_singleton_false (t : Template) (h : t.isDefault = false) :
    countDefaults [t] = 0 := by
  rw [countDefaults_cons, if_neg (by rw [h]; simp)]
  simp [countDefaults]

/-- Membership in an updated chapter map. -/
theorem mem_setChapter (sets : TemplateSets) (ch : String)
    (f : List Template → List Template) (p : String × List Template)
    (hp : p ∈ setChapter sets ch f) :
    (p ∈ sets ∧ (p.1 == ch) = false) ∨
      ∃ q ∈ sets, (q.1 == ch) = true ∧ p = (q.1, f q.2) := by
  unfold setChapter at hp
  obtain ⟨q, hq, heq⟩ := List.mem_map.mp hp
  by_cases hc : (q.1 == ch) = true
  · right
    exact ⟨q, hq, hc, by rw [← heq, if_pos hc]⟩
  · left
    constructor
    · rw [← heq, if_neg hc]
      exact hq
    · rw [← heq, if_neg hc]
      exact Bool.not_eq_true _ ▸ (Bool.eq_false_iff.mpr (by exact fun h => hc h))

/-- `setChapter` preserves the invariant when the rewritten lists do. -/
theorem invariant_setChapter (sets : TemplateSets) (ch : String)
    (f : List Template → List Template) (hinv : defaultInvariant sets)
    (hf : ∀ q ∈ sets, (q.1 == ch) = true → countDefaults (f q.2) ≤ 1) :
    defaultInvariant (setChapter sets ch f) := by
  intro p hp
  rcases mem_setChapter sets ch f p hp with ⟨h, _⟩ | ⟨q, hq, hc, heq⟩
  · exact hinv p h
  · rw [heq]
    exact hf q hq hc

/-- The invariant distributes over appends. -/
theorem invariant_append (s1 s2 : TemplateSets)
    (h1 : defaultInvariant s1) (h2 : defaultInvariant s2) :
    defaultInvariant (s1 ++ s2) := by
  intro p hp
  rcases List.mem_append.mp hp with h | h
  · exact h1 p h
  · exact h2 p h

/-- `setChapter` leaves the key set unchanged. -/
theorem hasChapter_setChapter (sets : TemplateSets) (ch2 ch : String)
    (f : List Template → List Template) :
    hasChapter (setChapter sets ch f) ch2 = hasChapter sets ch2 := by
  induction sets with
  | nil => rfl
  | cons q rest ih =>
    show hasChapter ((if (q.1 == ch) = true then (q.1, f q.2) else q) :: setChapter rest ch f)
      ch2 = _
    by_cases hc : (q.1 == ch) = true
    · rw [if_pos hc]
      unfold hasChapter at ih ⊢
      simp [ih]
    · rw [if_neg hc]
      unfold hasChapter at ih ⊢
      simp [ih]

/-- `create_template` preserves the at-most-one-default invariant: a
default creation clears the chapter's flags first, a non-default creation
appends an unflagged entry. -/
theorem createTemplate_invariant (sets : TemplateSets) (ch tid name sys upt : String)
    (isDef : Bool) (now : String) (hinv : defaultInvariant sets) :
    defaultInvariant (createTemplate sets ch tid name sys upt isDef now) := by
  unfold createTemplate
  dsimp only
  by_cases h1 : (isDef = true ∧ hasChapter sets ch = true)
  · rw [if_pos h1]
    have hinv1 : defaultInvariant (setChapter sets ch clearDefaults) :=
      invariant_setChapter sets ch clearDefaults hinv
        (fun q _ _ => by
          show countDefaults (q.2.map (fun t => { t with isDefault := false })) ≤ 1
          rw [countDefaults_clear]
          omega)
    by_cases h2 : hasChapter (setChapter sets ch clearDefaults) ch = true
    · rw [if_pos h2]
      apply invariant_setChapter _ ch _ hinv1
      intro q hq hc
      rcases mem_setChapter sets ch clearDefaults q hq with ⟨_, hkey⟩ | ⟨r, _, _, heq⟩
      · rw [hc] at hkey
        exact Bool.noConfusion hkey
      · rw [heq]
        dsimp only
        rw [countDefaults_append]
        show countDefaults (r.2.map (fun t => { t with isDefault := false })) + _ ≤ 1
        rw [countDefaults_clear]
        have := countDefaults_singleton_le (mkTemplate tid name ch sys upt isDef now)
        omega
    · rw [if_neg h2]
      apply invariant_setChapter _ ch _
        (invariant_append _ _ hinv1 (by
          intro p hp
          simp only [List.mem_singleton] at hp
          rw [hp]
          show countDefaults [] ≤ 1
          simp [countDefaults]))
      intro q hq hc
      rcases List.mem_append.mp hq with hq1 | hq2
      · exfalso
        apply h2
        unfold hasChapter
        rw [List.any_eq_true]
        exact ⟨q, hq1, hc⟩
      · simp only [List.mem_singleton] at hq2
        rw [hq2]
        dsimp only
        rw [show ([] : List Template) ++ [mkTemplate tid name ch sys upt isDef now]
          = [mkTemplate tid name ch sys upt isDef now] from rfl]
        exact countDefaults_singleton_le _
  · rw [if_neg h1]
    by_cases h2 : hasChapter sets ch = true
    · rw [if_pos h2]
      apply invariant_setChapter sets ch _ hinv
      intro q hq hc
      have hisdef : isDef = false := by
        cases hd : isDef
        · rfl
        · exact absurd ⟨hd, h2⟩ h1
      rw [countDefaults_append,
        countDefaults_singleton_false (mkTemplate tid name ch sys upt isDef now)
          (by rw [show (mkTemplate tid name ch sys upt isDef now).isDefault = isDef from rfl,
            hisdef])]
      have := hinv q hq
      omega
    · rw [if_neg h2]
      apply invariant_setChapter _ ch _
        (invariant_append _ _ hinv (by
          intro p hp
          simp only [List.mem_singleton] at hp
          rw [hp]
          show countDefaults [] ≤ 1
          simp [countDefaults]))
      intro q hq hc
      rcases List.mem_append.mp hq with hq1 | hq2
      · exfalso
        apply h2
        unfold hasChapter
        rw [List.any_eq_true]
        exact ⟨q, hq1, hc⟩
      · simp only [List.mem_singleton] at hq2
        rw [hq2]
        dsimp only
        rw [show ([] : List Template) ++ [mkTemplate tid name ch sys upt isDef now]
          = [mkTemplate tid name ch sys upt isDef now] from rfl]
        exact countDefaults_singleton_le _

/-- Replacing one element can raise the default count by at most one. -/
theorem countDefaults_setFirst_le (tid : String) (g : Template → Template)
    (l : List Template) :
    countDefaults (setFirstMatching tid g l) ≤ countDefaults l + 1 := by
  induction l with
  | nil => simp [setFirstMatching, countDefaults]
  | cons t ts ih =>
    unfold setFirstMatching
    split_ifs with h
    · rw [countDefaults_cons, countDefaults_cons]
      split_ifs <;> omega
    · rw [countDefaults_cons, countDefaults_cons]
      split_ifs <;> omega

/-- Replacing one element by a flag-preserving update keeps the count. -/
theorem countDefaults_setFirst_congr (tid : String) (g : Template → Template)
    (l : List Template) (hg : ∀ t, (g t).isDefault = t.isDefault) :
    countDefaults (setFirstMatching tid g l) = countDefaults l := by
  induction l with
  | nil => rfl
  | cons t ts ih =>
    unfold setFirstMatching
    split_ifs with h
    · rw [countDefaults_cons, countDefaults_cons, hg]
    · rw [countDefaults_cons, countDefaults_cons, ih]

/-- Replacing one element by an unflagged one never raises the count. -/
theorem countDefaults_setFirst_false (tid : String) (g : Template → Template)
    (l : List Template) (hg : ∀ t, (g t).isDefault = false) :
    countDefaults (setFirstMatching tid g l) ≤ countDefaults l := by
  induction l with
  | nil => simp [setFirstMatching]
  | cons t ts ih =>
    unfold setFirstMatching
    split_ifs with h
    · rw [countDefaults_cons, countDefaults_cons, hg]
      have h0 : (if false = true then 1 else 0) = 0 := rfl
      rw [h0]
      split_ifs <;> omega
    · rw [countDefaults_cons, countDefaults_cons]
      omega

/-- Elements of the rewritten chapter list either come unchanged from the
original list or are the update applied to the first id match. -/
theorem mem_setFirstMatching (tid : String) (g : Template → Template) :
    ∀ (l : List Template) (t : Template), t ∈ setFirstMatching tid g l →
      t ∈ l ∨ ∃ u ∈ l, u.id = tid ∧ t = g u := by
  intro l
  induction l with
  | nil => intro t ht; simp [setFirstMatching] at ht
  | cons u0 ts ih =>
    intro t ht
    unfold setFirstMatching at ht
    split_ifs at ht with h
    · rcases List.mem_cons.mp ht with h1 | h1
      · right
        exact ⟨u0, List.mem_cons_self _ _, h, h1⟩
      · left
        exact List.mem_cons_of_mem _ h1
    · rcases List.mem_cons.mp ht with h1 | h1
      · left
        rw [h1]
        exact List.mem_cons_self _ _
      · rcases ih t h1 with h2 | ⟨u, hu, hid, heq⟩
        · left
          exact List.mem_cons_of_mem _ h2
        · right
          exact ⟨u, List.mem_cons_of_mem _ hu, hid, heq⟩

/-- A successful single-chapter update keeps the chapter's default count
at most one. -/
theorem updateChapterList_count (ts : List Template) (tid : String)
    (name sys upt : Option String) (isDef : Option Bool) (now : String)
    (ts2 : List Template)
    (h : updateChapterList ts tid name sys upt isDef now = some ts2)
    (hle : countDefaults ts ≤ 1) : countDefaults ts2 ≤ 1 := by
  unfold updateChapterList at h
  split_ifs at h with hany hsome
  · rw [Option.some_inj] at h
    subst h
    have h1 := countDefaults_setFirst_le tid
      (fun t => applyUpdates t name sys upt isDef now)
      (ts.map (fun t => { t with isDefault := false }))
    rw [countDefaults_clear] at h1
    omega
  · rw [Option.some_inj] at h
    subst h
    cases hdef : isDef with
    | none =>
      rw [countDefaults_setFirst_congr tid
        (fun t => applyUpdates t name sys upt none now) ts (fun t => rfl)]
      exact hle
    | some b =>
      cases b with
      | true =>
        rw [hdef] at hsome
        exact absurd rfl hsome
      | false =>
        have h1 := countDefaults_setFirst_false tid
          (fun t => applyUpdates t name sys upt (some false) now) ts (fun t => rfl)
        omega

/-- Unfolding `update_template` when the first chapter contains the id. -/
theorem updateTemplate_cons_found (ch : String) (ts : List Template)
    (rest : TemplateSets) (tid : String) (name sys upt : Option String)
    (isDef : Option Bool) (now : String) (ts2 : List Template)
    (hu : updateChapterList ts tid name sys upt isDef now = some ts2) :
    updateTemplate ((ch, ts) :: rest) tid name sys upt isDef now
      = some ((ch, ts2) :: rest) := by
  conv_lhs => rw [updateTemplate]
  rw [hu]

/-- Unfolding `update_template` when the first chapter lacks the id. -/
theorem updateTemplate_cons_notfound (ch : String) (ts : List Template)
    (rest : TemplateSets) (tid : String) (name sys upt : Option String)
    (isDef : Option Bool) (now : String)
    (hu : updateChapterList ts tid name sys upt isDef now = none) :
    updateTemplate ((ch, ts) :: rest) tid name sys upt isDef now
      = match updateTemplate rest tid name sys upt isDef now with
        | some rest2 => some ((ch, ts) :: rest2)
        | none => none := by
  conv_lhs => rw [updateTemplate]
  rw [hu]

/-- `update_template` preserves the at-most-one-default invariant. -/
theorem updateTemplate_invariant (sets : TemplateSets) (tid : String)
    (name sys upt : Option String) (isDef : Option Bool) (now : String) :
    ∀ sets2, updateTemplate sets tid name sys upt isDef now = some sets2 →
      defaultInvariant sets → defaultInvariant sets2 := by
  induction sets with
  | nil =>
    intro sets2 h _
    exact absurd h (by simp [updateTemplate])
  | cons p rest ih =>
    intro sets2 h hinv
    obtain ⟨ch, ts⟩ := p
    cases hu : updateChapterList ts tid name sys upt isDef now with
    | some ts2' =>
      rw [updateTemplate_cons_found ch ts rest tid name sys upt isDef now ts2' hu] at h
      rw [Option.some_inj] at h
      subst h
      intro p hp
      rcases List.mem_cons.mp hp with h1 | h1
      · rw [h1]
        exact updateChapterList_count ts tid name sys upt isDef now ts2' hu
          (hinv (ch, ts) (List.mem_cons_self _ _))
      · exact hinv p (List.mem_cons_of_mem _ h1)
    | none =>
      rw [updateTemplate_cons_notfound ch ts rest tid name sys upt isDef now hu] at h
      cases hrest : updateTemplate rest tid name sys upt isDef now with
      | some rest2 =>
        rw [hrest] at h
        have h2 : some ((ch, ts) :: rest2) = some sets2 := h
        rw [Option.some_inj] at h2
        subst h2
        intro p hp
        rcases List.mem_cons.mp hp with h1 | h1
        · rw [h1]
          exact hinv (ch, ts) (List.mem_cons_self _ _)
        · exact ih rest2 hrest (fun q hq => hinv q (List.mem_cons_of_mem _ hq)) p h1
      | none =>
        rw [hrest] at h
        have h2 : (none : Option TemplateSets) = some sets2 := h
        exact Option.noConfusion h2

/-- Unfolding `delete_template` when the first chapter contains the id. -/
theorem deleteTemplate_cons_found (ch : String) (ts : List Template)
    (rest : TemplateSets) (tid : String) (removed : Template)
    (remaining : List Template)
    (hr : removeFirst ts tid = some (removed, remaining)) :
    deleteTemplate ((ch, ts) :: rest) tid
      = if ts.length = 1 then none
        else some ((ch, if removed.isDefault = true ∧ ¬remaining = []
            then setFirstDefault remaining else remaining) :: rest) := by
  conv_lhs => rw [deleteTemplate]
  rw [hr]

/-- Unfolding `delete_template` when the first chapter lacks the id. -/
theorem deleteTemplate_cons_notfound (ch : String) (ts : List Template)
    (rest : TemplateSets) (tid : String) (hr : removeFirst ts tid = none) :
    deleteTemplate ((ch, ts) :: rest) tid
      = match deleteTemplate rest tid with
        | some rest2 => some ((ch, ts) :: rest2)
        | none => none := by
  conv_lhs => rw [deleteTemplate]
  rw [hr]

/-- `delete_template` preserves the at-most-one-default invariant. -/
theorem deleteTemplate_invariant (sets : TemplateSets) (tid : String) :
    ∀ sets2, deleteTemplate sets tid = some sets2 →
      defaultInvariant sets → defaultInvariant sets2 := by
  induction sets with
  | nil =>
    intro sets2 h _
    exact absurd h (by simp [deleteTemplate])
  | cons p rest ih =>
    intro sets2 h hinv
    obtain ⟨ch, ts⟩ := p
    cases hr : removeFirst ts tid with
    | some pr =>
      obtain ⟨removed, remaining⟩ := pr
      rw [deleteTemplate_cons_found ch ts rest tid removed remaining hr] at h
      have hts : countDefaults ts ≤ 1 := hinv (ch, ts) (List.mem_cons_self _ _)
      obtain ⟨a, b, hts2, hrem, _, _⟩ := removeFirst_eq_some ts tid removed remaining hr
      have hcount : countDefaults ts
          = countDefaults a + countDefaults b + (if removed.isDefault then 1 else 0) := by
        rw [hts2, countDefaults_append, countDefaults_cons]
        omega
      have hremcount : countDefaults remaining = countDefaults a + countDefaults b := by
        rw [hrem, countDefaults_append]
      split_ifs at h with hl hcond
      · rw [Option.some_inj] at h
        subst h
        intro p hp
        rcases List.mem_cons.mp hp with h1 | h1
        · rw [h1]
          dsimp only
          have h0 : countDefaults remaining = 0 := by
            rw [hcond.1] at hcount
            have hone : (if (true : Bool) = true then 1 else 0) = 1 := rfl
            rw [hone] at hcount
            omega
          cases hr0 : remaining with
          | nil => exact absurd hr0 hcond.2
          | cons r0 rr =>
            rw [hr0] at h0
            show countDefaults ({ r0 with isDefault := true } :: rr) ≤ 1
            rw [countDefaults_cons] at h0
            rw [countDefaults_cons]
            have hB : (if ({ r0 with isDefault := true } : Template).isDefault
                then 1 else 0) = 1 := rfl
            rw [hB]
            omega
        · exact hinv p (List.mem_cons_of_mem _ h1)
      · rw [Option.some_inj] at h
        subst h
        intro p hp
        rcases List.mem_cons.mp hp with h1 | h1
        · rw [h1]
          dsimp only
          have hle2 : countDefaults a + countDefaults b ≤ countDefaults ts := by
            rw [hcount]
            split_ifs <;> omega
          omega
        · exact hinv p (List.mem_cons_of_mem _ h1)
    | none =>
      rw [deleteTemplate_cons_notfound ch ts rest tid hr] at h
      cases hrest : deleteTemplate rest tid with
      | some rest2 =>
        rw [hrest] at h
        have h2 : some ((ch, ts) :: rest2) = some sets2 := h
        rw [Option.some_inj] at h2
        subst h2
        intro p hp
        rcases List.mem_cons.mp hp with h1 | h1
        · rw [h1]
          exact hinv (ch, ts) (List.mem_cons_self _ _)
        · exact ih rest2 hrest (fun q hq => hinv q (List.mem_cons_of_mem _ hq)) p h1
      | none =>
        rw [hrest] at h
        have h2 : (none : Option TemplateSets) = some sets2 := h
        exact Option.noConfusion h2

/-- After a default-setting chapter update, the only flagged template in
the rewritten list is the one with the updated id. -/
theorem updateChapterList_clears (ts : List Template) (tid : String)
    (name sys upt : Option String) (now : String) (ts2 : List Template)
    (h : updateChapterList ts tid name sys upt (some true) now = some ts2) :
    ∀ t ∈ ts2, t.isDefault = true → t.id = tid := by
  unfold updateChapterList at h
  split_ifs at h with hany hsome
  case neg => exact absurd rfl hsome
  dsimp only at h
  rw [Option.some_inj] at h
  subst h
  intro t ht htd
  rcases mem_setFirstMatching tid _ _ t ht with h1 | ⟨u, hu, hid, heq⟩
  · obtain ⟨v, _, hveq⟩ := List.mem_map.mp h1
    rw [← hveq] at htd
    simp at htd
  · rw [heq]
    show (applyUpdates u name sys upt (some true) now).id = tid
    obtain ⟨w, _, hweq⟩ := List.mem_map.mp hu
    rw [show (applyUpdates u name sys upt (some true) now).id = u.id from rfl]
    rw [← hweq] at hid ⊢
    exact hid

/-- A successful default-setting `update_template` rewrites exactly one
chapter, and in that chapter every flagged template has the updated id. -/
theorem updateTemplate_clears (sets : TemplateSets) (tid : String)
    (name sys upt : Option String) (now : String) :
    ∀ sets2, updateTemplate sets tid name sys upt (some true) now = some sets2 →
      ∃ pre ch ts ts2 tail, sets = pre ++ (ch, ts) :: tail ∧
        sets2 = pre ++ (ch, ts2) :: tail ∧
        ∀ t ∈ ts2, t.isDefault = true → t.id = tid := by
  induction sets with
  | nil =>
    intro sets2 h
    exact absurd h (by simp [updateTemplate])
  | cons p rest ih =>
    intro sets2 h
    obtain ⟨ch, ts⟩ := p
    cases hu : updateChapterList ts tid name sys upt (some true) now with
    | some ts2' =>
      rw [updateTemplate_cons_found ch ts rest tid name sys upt (some true) now ts2' hu] at h
      rw [Option.some_inj] at h
      subst h
      exact ⟨[], ch, ts, ts2', rest, rfl, rfl,
        updateChapterList_clears ts tid name sys upt now ts2' hu⟩
    | none =>
      rw [updateTemplate_cons_notfound ch ts rest tid name sys upt (some true) now hu] at h
      cases hrest : updateTemplate rest tid name sys upt (some true) now with
      | some rest2 =>
        rw [hrest] at h
        have h2 : some ((ch, ts) :: rest2) = some sets2 := h
        rw [Option.some_inj] at h2
        subst h2
        obtain ⟨pre, ch2, ts0, ts2'', tail, e1, e2, hcl⟩ := ih rest2 hrest
        refine ⟨(ch, ts) :: pre, ch2, ts0, ts2'', tail, ?_, ?_, hcl⟩
        · rw [e1]
          rfl
        · rw [e2]
          rfl
      | none =>
        rw [hrest] at h
        have h2 : (none : Option TemplateSets) = some sets2 := h
        exact Option.noConfusion h2

/-- In a default creation the only flagged template of the affected
chapter is the newly created one. -/
theorem createTemplate_clears (sets : TemplateSets) (ch tid name sys upt now : String)
    (p : String × List Template)
    (hp : p ∈ createTemplate sets ch tid name sys upt true now) (hpc : p.1 = ch) :
    ∀ t ∈ p.2, t.isDefault = true → t = mkTemplate tid name ch sys upt true now := by
  unfold createTemplate at hp
  dsimp only at hp
  by_cases hc : hasChapter sets ch = true
  · rw [if_pos (show true = true ∧ hasChapter sets ch = true from ⟨rfl, hc⟩)] at hp
    rw [if_pos (show hasChapter (setChapter sets ch clearDefaults) ch = true by
      rw [hasChapter_setChapter]; exact hc)] at hp
    rcases mem_setChapter _ _ _ _ hp with ⟨_, hkey⟩ | ⟨q, hq, hkc, heq⟩
    · exfalso
      rw [hpc] at hkey
      simp at hkey
    · intro t ht htd
      rw [heq] at ht
      dsimp only at ht
      rcases List.mem_append.mp ht with ht1 | ht2
      · rcases mem_setChapter _ _ _ _ hq with ⟨_, hkey2⟩ | ⟨r, _, _, heq2⟩
        · rw [hkc] at hkey2
          exact Bool.noConfusion hkey2
        · rw [heq2] at ht1
          dsimp only at ht1
          obtain ⟨u, _, hueq⟩ := List.mem_map.mp ht1
          rw [← hueq] at htd
          simp at htd
      · simp only [List.mem_singleton] at ht2
        exact ht2
  · rw [if_neg (show ¬(true = true ∧ hasChapter sets ch = true) from
      fun hcc => hc hcc.2)] at hp
    rw [if_neg (show ¬(hasChapter sets ch = true) from hc)] at hp
    rcases mem_setChapter _ _ _ _ hp with ⟨_, hkey⟩ | ⟨q, hq, hkc, heq⟩
    · exfalso
      rw [hpc] at hkey
      simp at hkey
    · intro t ht htd
      rw [heq] at ht
      dsimp only at ht
      rcases List.mem_append.mp ht with ht1 | ht2
      · rcases List.mem_append.mp hq with hq1 | hq2
        · exfalso
          apply hc
          unfold hasChapter
          rw [List.any_eq_true]
          exact ⟨q, hq1, hkc⟩
        · simp only [List.mem_singleton] at hq2
          rw [hq2] at ht1
          simp at ht1
      · simp only [List.mem_singleton] at ht2
        exact ht2

/-- C9.  Each of create / update / delete preserves the invariant that a
chapter list carries at most one `isDefault` flag, and creating or
updating a template with `isDefault = true` clears every other flag in
the same chapter's list within the same save: after such a create, the
chapter's only flagged entry is the new template; after such an update,
the rewritten chapter's only flagged entry carries the updated id. -/
theorem c9_default_flag_invariant (sets : TemplateSets) (hinv : defaultInvariant sets) :
    (∀ ch tid name sys upt isDef now,
      defaultInvariant (createTemplate sets ch tid name sys upt isDef now)) ∧
    (∀ tid name sys upt isDef now sets2,
      updateTemplate sets tid name sys upt isDef now = some sets2 →
      defaultInvariant sets2) ∧
    (∀ tid sets2, deleteTemplate sets tid = some sets2 → defaultInvariant sets2) ∧
    (∀ ch tid name sys upt now p,
      p ∈ createTemplate sets ch tid name sys upt true now → p.1 = ch →
      ∀ t ∈ p.2, t.isDefault = true → t = mkTemplate tid name ch sys upt true now) ∧
    (∀ tid name sys upt now sets2,
      updateTemplate sets tid name sys upt (some true) now = some sets2 →
      ∃ pre ch ts ts2 tail, sets = pre ++ (ch, ts) :: tail ∧
        sets2 = pre ++ (ch, ts2) :: tail ∧
        ∀ t ∈ ts2, t.isDefault = true → t.id = tid) :=
  ⟨fun ch tid name sys upt isDef now =>
      createTemplate_invariant sets ch tid name sys upt isDef now hinv,
   fun tid name sys upt isDef now sets2 h =>
      updateTemplate_invariant sets tid name sys upt isDef now sets2 h hinv,
   fun tid sets2 h => deleteTemplate_invariant sets tid sets2 h hinv,
   fun ch tid name sys upt now p hp hpc =>
      createTemplate_clears sets ch tid name sys upt now p hp hpc,
   fun tid name sys upt now sets2 h =>
      updateTemplate_clears sets tid name sys upt now sets2 h⟩

/-- C9, witness: creating a default template over a chapter that already
has one preserves the invariant. -/
theorem c9_default_flag_witness :
    defaultInvariant (createTemplate
      [("chapter_1", [mkTemplate "t1" "n" "chapter_1" "s" "u" true "ts"])]
      "chapter_1" "t2" "n2" "s2" "u2" true "ts2") :=
  (c9_default_flag_invariant
      [("chapter_1", [mkTemplate "t1" "n" "chapter_1" "s" "u" true "ts"])]
      (by decide)).1 "chapter_1" "t2" "n2" "s2" "u2" true "ts2"

end ReportGen
